import Mathlib

/-!
Verification development for `aptos/filter_consensus_logs.py`: a shallow
embedding of the log discovery, parsing, filtering and multiplexed writing
pipeline, together with theorems settling the specification claims.

Strings are modelled as `List Char` (Python `str` is a sequence of code
points; we restrict the `\s`, `\d`, `[A-Z]` character classes to their ASCII
meaning, which is the only case exercised by the log format).
-/

namespace FilterLogs

/-- Python `\s` restricted to ASCII: the whitespace class used by `re`. -/
def pyWs (c : Char) : Bool :=
  c = ' ' || c = '\t' || c = '
' || c = '\r' || c = '\x0b' || c = '\x0c'

/-- Character class `[0-9:.]` used for the time-of-day part of `LINE_RE`. -/
def tsClass (c : Char) : Bool := c.isDigit || c = ':' || c = '.'

/-- Python `str.rstrip("
")`: drop every trailing newline character. -/
def rstripNl (s : List Char) : List Char :=
  (s.reverse.dropWhile (fun c => c = '
')).reverse

/-- Decimal value of a digit string, as computed by Python `int`. -/
def natOfDigits (ds : List Char) : Nat :=
  ds.foldl (fun n c => 10 * n + (c.toNat - 48)) 0

/-- Does `s` start with `pat`? (Helper for substring search.) -/
def leadMatch : List Char → List Char → Bool
  | [], _ => true
  | _ :: _, [] => false
  | p :: ps, c :: cs => p = c && leadMatch ps cs

/-- Substring containment, the semantics of `KW_RE.search` for a single
literal keyword (Python `pat in s`). -/
def occursIn (pat : List Char) : List Char → Bool
  | [] => pat.isEmpty
  | c :: cs => leadMatch pat (c :: cs) || occursIn pat cs

/-- Match exactly `n` characters satisfying `p` (regex `\d{n}` etc.). -/
def matchCount (p : Char → Bool) : Nat → List Char → Option (List Char × List Char)
  | 0, s => some ([], s)
  | _ + 1, [] => none
  | n + 1, c :: t =>
      if p c then (matchCount p n t).map (fun ab => (c :: ab.1, ab.2)) else none

/-- Match one fixed character. -/
def expectChar (c : Char) : List Char → Option (List Char)
  | [] => none
  | d :: t => if d = c then some t else none

/-- Greedy `p+`: the maximal nonempty run of characters satisfying `p`.
For every occurrence of `p+` in `LINE_RE` the following regex atom cannot
match a character of the class `p`, so the greedy maximal run is the unique
way the backtracking engine can match. -/
def plusRun (p : Char → Bool) (s : List Char) : Option (List Char × List Char) :=
  let a := s.takeWhile p
  if a.isEmpty then none else some (a, s.dropWhile p)

/-- Captured groups of `LINE_RE`. -/
structure Groups where
  ts : List Char
  thr : List Char
  level : List Char
  target : List Char
  lineNo : List Char
  msg : List Char
deriving Repr, DecidableEq

/-- Timestamp part of `LINE_RE`:
`(?P<ts>\d{4}-\d{2}-\d{2}T[0-9:.]+Z)` followed by nothing else; returns the
matched text and the rest of the input. -/
def matchTs (s : List Char) : Option (List Char × List Char) := do
  let (d1, r1) ← matchCount Char.isDigit 4 s
  let r2 ← expectChar '-' r1
  let (d2, r3) ← matchCount Char.isDigit 2 r2
  let r4 ← expectChar '-' r3
  let (d3, r5) ← matchCount Char.isDigit 2 r4
  let r6 ← expectChar 'T' r5
  let (tm, r7) ← plusRun tsClass r6
  let r8 ← expectChar 'Z' r7
  some (d1 ++ '-' :: d2 ++ '-' :: d3 ++ 'T' :: tm ++ ['Z'], r8)

/-- Continuation `:(?P<line>\d+)\s+(?P<msg>.*)$` attempted after a candidate
target: a colon, a maximal nonempty digit run, a maximal nonempty whitespace
run, and a remainder free of newlines (`.` does not match `
`, and after
`rstrip("
")` the `$` anchor can only be the end of the string). Returns
`(line digits, whitespace, msg)`. -/
def tryCont (s : List Char) : Option (List Char × List Char × List Char) :=
  match s with
  | [] => none
  | c :: r =>
      if c = ':' then
        match plusRun Char.isDigit r with
        | none => none
        | some (ds, r1) =>
            match plusRun pyWs r1 with
            | none => none
            | some (w, r2) => if r2.contains '
' then none else some (ds, w, r2)
      else none

/-- The lazy `(?P<target>\S+?)` loop: grow the target one non-whitespace
character at a time (shortest first, as the lazy quantifier backtracks),
attempting the continuation after each character. `acc` is the reversed
target consumed so far (always nonempty at call sites).
Returns `(target, line digits, whitespace, msg)`. -/
def targetLoop (acc : List Char) : List Char → Option (List Char × List Char × List Char × List Char)
  | [] => none
  | c :: r =>
      match tryCont (c :: r) with
      | some (ds, w, msg) => some (acc.reverse, ds, w, msg)
      | none => if pyWs c then none else targetLoop (c :: acc) r

/-- `LINE_RE.match` on an input with its trailing newlines already stripped:
the anchored match of

`^(?P<ts>\d{4}-\d{2}-\d{2}T[0-9:.]+Z)\s+\[(?P<thr>[^\]]+)\]\s+(?P<level>[A-Z]+)\s+(?P<target>\S+?):(?P<line>\d+)\s+(?P<msg>.*)$`

returning the captured groups. Every greedy run in the pattern is followed
by an atom disjoint from its class, so the backtracking search is
deterministic except for the lazy target, which `targetLoop` resolves
shortest-first exactly as the engine does. -/
def structMatch (s0 : List Char) : Option Groups := do
  let (ts, r1) ← matchTs s0
  let (_, r2) ← plusRun pyWs r1
  let r3 ← expectChar '[' r2
  let (thr, r4) ← plusRun (fun c => c ≠ ']') r3
  let r5 ← expectChar ']' r4
  let (_, r6) ← plusRun pyWs r5
  let (lvl, r7) ← plusRun Char.isUpper r6
  let (_, r8) ← plusRun pyWs r7
  match r8 with
  | [] => none
  | c :: r9 =>
      if pyWs c then none
      else
        match targetLoop [c] r9 with
        | none => none
        | some (tgt, ds, _, msg) => some ⟨ts, thr, lvl, tgt, ds, msg⟩

/-- The `EVENT_KEYWORDS` list, verbatim from the source. -/
def EVENT_KEYWORDS : List String :=
  ["NewEpoch", "NewRound", "CommitViaBlock",
   "Timeout", "RoundTimeout", "ReceiveRoundTimeout",
   "Vote", "VoteNIL",
   "Propose", "OptPropose",
   "ReceiveProposal", "ReceiveOptProposal", "ProcessOptProposal",
   "ReceiveSyncInfo", "SyncInfo", "ReceiveNewCertificate",
   "NetworkReceiveProposal", "NetworkReceiveOptProposal", "NetworkReceiveSyncInfo",
   "Broadcast", "BroadcastOrderVote", "BroadcastRandShareFastPath",
   "ReceiveOrderVote", "OrderVote", "ReceiveVote",
   "Signed ledger info", "Receive commit vote", "Receive ordered block",
   "leader", "Leader", "proposer", "Proposer", "proposer_election", "rotating_proposer",
   "pacemaker", "Pacemaker"]

/-- `KW_RE.search(s)` succeeds: the alternation of the escaped keywords finds
a match exactly when some keyword occurs in `s` as a substring. -/
def kwMatch (s : List Char) : Bool :=
  EVENT_KEYWORDS.any (fun k => occursIn k.data s)

/-- JSON values as produced by `json.loads`. Objects are insertion-ordered
key/value lists with unique keys (a later duplicate key overwrites the value
in place, as Python dict assignment does). Non-integer numbers keep their
lexeme (`jnum`); their IEEE-754 float value is not modelled, which is sound
here because no code under verification computes with them. The literals
`NaN`, `Infinity` and `-Infinity` accepted by `json.loads` are stored as
`jnum` lexemes as well. -/
inductive Json where
  | jnull
  | jbool (b : Bool)
  | jint (n : Int)
  | jnum (raw : List Char)
  | jstr (s : List Char)
  | jarr (xs : List Json)
  | jobj (ms : List (List Char × Json))
deriving Repr

instance : Inhabited Json := ⟨Json.jnull⟩

/-- JSON whitespace skipped by the decoder: space, tab, newline, return. -/
def jskipWs (s : List Char) : List Char :=
  s.dropWhile (fun c => c = ' ' || c = '\t' || c = '
' || c = '\r')

/-- Value of one hexadecimal digit. -/
def hexDigit (c : Char) : Option Nat :=
  if c.isDigit then some (c.toNat - 48)
  else if 'a' ≤ c && c ≤ 'f' then some (c.toNat - 87)
  else if 'A' ≤ c && c ≤ 'F' then some (c.toNat - 55)
  else none

/-- Four hexadecimal digits of a `\uXXXX` escape. -/
def hex4 : List Char → Option (Nat × List Char)
  | a :: b :: c :: d :: r => do
      let x ← hexDigit a
      let y ← hexDigit b
      let z ← hexDigit c
      let w ← hexDigit d
      some (((x * 16 + y) * 16 + z) * 16 + w, r)
  | _ => none

/-- Dict assignment `d[k] = v`: replace the value in place if the key is
present, otherwise append the pair. -/
def objUpd (ms : List (List Char × Json)) (k : List Char) (v : Json) :
    List (List Char × Json) :=
  match ms with
  | [] => [(k, v)]
  | (k2, v2) :: rest =>
      if k2 = k then (k2, v) :: rest else (k2, v2) :: objUpd rest k v

/-- Dict lookup `d.get(k)`. -/
def objGet (ms : List (List Char × Json)) (k : List Char) : Option Json :=
  match ms with
  | [] => none
  | (k2, v) :: rest => if k2 = k then some v else objGet rest k

/-- Dict membership `k in d`. -/
def objHas (ms : List (List Char × Json)) (k : List Char) : Bool :=
  ms.any (fun m => m.1 = k)

/-- JSON string body after the opening quote, with the strict escape rules of
`json.loads`: raw control characters below `0x20` are rejected, the eight
single-character escapes and `\uXXXX` are decoded, and a high surrogate
followed by a `\u` low surrogate combines into one code point. A lone
surrogate, which Python would keep in the `str`, is mapped through
`Char.ofNat` (Lean `Char` has no surrogates); no input in this development
contains one. Returns the decoded body and the input after the closing
quote. -/
def jStr (fuel : Nat) (s : List Char) : Option (List Char × List Char) :=
  match fuel, s with
  | 0, _ => none
  | _, [] => none
  | f + 1, c :: t =>
    if c = '"' then some ([], t)
    else if c = '\\' then
      match t with
      | [] => none
      | e :: t2 =>
        if e = '"' then (jStr f t2).map (fun p => ('"' :: p.1, p.2))
        else if e = '\\' then (jStr f t2).map (fun p => ('\\' :: p.1, p.2))
        else if e = '/' then (jStr f t2).map (fun p => ('/' :: p.1, p.2))
        else if e = 'b' then (jStr f t2).map (fun p => ('\x08' :: p.1, p.2))
        else if e = 'f' then (jStr f t2).map (fun p => ('\x0c' :: p.1, p.2))
        else if e = 'n' then (jStr f t2).map (fun p => ('
' :: p.1, p.2))
        else if e = 'r' then (jStr f t2).map (fun p => ('\r' :: p.1, p.2))
        else if e = 't' then (jStr f t2).map (fun p => ('\t' :: p.1, p.2))
        else if e = 'u' then
          match hex4 t2 with
          | none => none
          | some (n, r) =>
            if 0xD800 ≤ n && n ≤ 0xDBFF then
              match r with
              | '\\' :: 'u' :: r2 =>
                match hex4 r2 with
                | none => none
                | some (m, r3) =>
                  if 0xDC00 ≤ m && m ≤ 0xDFFF then
                    (jStr f r3).map (fun p =>
                      (Char.ofNat (0x10000 + (n - 0xD800) * 0x400 + (m - 0xDC00)) :: p.1, p.2))
                  else (jStr f r).map (fun p => (Char.ofNat n :: p.1, p.2))
              | _ => (jStr f r).map (fun p => (Char.ofNat n :: p.1, p.2))
            else (jStr f r).map (fun p => (Char.ofNat n :: p.1, p.2))
        else none
    else if c.toNat < 32 then none
    else (jStr f t).map (fun p => (c :: p.1, p.2))

/-- Number token of the decoder, the regex
`(-?(?:0|[1-9]\d*))(\.\d+)?([eE][-+]?\d+)?`: returns the parsed value (an
integer when neither a fraction nor an exponent is present, otherwise the
raw lexeme) and the rest of the input. -/
def jNumParse (s : List Char) : Option (Json × List Char) :=
  let core : List Char → Option (List Char × List Char) := fun r =>
    match r with
    | '0' :: r2 => some (['0'], r2)
    | c :: r2 =>
        if '1' ≤ c && c ≤ '9' then
          some (c :: r2.takeWhile Char.isDigit, r2.dropWhile Char.isDigit)
        else none
    | [] => none
  let (sgn, r0) : List Char × List Char :=
    match s with
    | '-' :: r => (['-'], r)
    | _ => ([], s)
  match core r0 with
  | none => none
  | some (ip, r1) =>
    let (fr, r2) : List Char × List Char :=
      match r1 with
      | '.' :: r2 =>
          let ds := r2.takeWhile Char.isDigit
          if ds.isEmpty then ([], r1) else ('.' :: ds, r2.dropWhile Char.isDigit)
      | _ => ([], r1)
    let (ex, r3) : List Char × List Char :=
      match r2 with
      | e :: r3 =>
          if e = 'e' || e = 'E' then
            let (sg2, r4) : List Char × List Char :=
              match r3 with
              | '+' :: r4 => (['+'], r4)
              | '-' :: r4 => (['-'], r4)
              | _ => ([], r3)
            let ds := r4.takeWhile Char.isDigit
            if ds.isEmpty then ([], r2)
            else (e :: (sg2 ++ ds), r4.dropWhile Char.isDigit)
          else ([], r2)
      | [] => ([], r2)
    if fr.isEmpty && ex.isEmpty then
      let v : Int := natOfDigits ip
      some (Json.jint (if sgn.isEmpty then v else -v), r1)
    else some (Json.jnum (sgn ++ ip ++ fr ++ ex), r3)

mutual

/-- One JSON value at the current position (whitespace already skipped),
as `json.scanner._scan_once`: strings, objects, arrays, the three literals,
numbers, and the `NaN`/`Infinity`/`-Infinity` extensions. -/
def jVal (fuel : Nat) (s : List Char) : Option (Json × List Char) :=
  match fuel with
  | 0 => none
  | f + 1 =>
    match s with
    | [] => none
    | c :: t =>
      if c = '{' then jMembers f (jskipWs t) true []
      else if c = '[' then jElems f (jskipWs t) true []
      else if c = '"' then (jStr f t).map (fun p => (Json.jstr p.1, p.2))
      else if leadMatch "true".data s then some (Json.jbool true, s.drop 4)
      else if leadMatch "false".data s then some (Json.jbool false, s.drop 5)
      else if leadMatch "null".data s then some (Json.jnull, s.drop 4)
      else if leadMatch "NaN".data s then some (Json.jnum "NaN".data, s.drop 3)
      else if leadMatch "Infinity".data s then some (Json.jnum "Infinity".data, s.drop 8)
      else if leadMatch "-Infinity".data s then some (Json.jnum "-Infinity".data, s.drop 9)
      else jNumParse s

/-- Object members after `{` (whitespace skipped). `first` is true before
any member has been parsed: only then may `}` close the object directly;
after a comma a quoted key is mandatory (no trailing comma). -/
def jMembers (fuel : Nat) (s : List Char) (first : Bool)
    (acc : List (List Char × Json)) : Option (Json × List Char) :=
  match fuel with
  | 0 => none
  | f + 1 =>
    match s with
    | '}' :: r => if first then some (Json.jobj acc, r) else none
    | '"' :: t => do
        let (k, r1) ← jStr f t
        let r2 ← expectChar ':' (jskipWs r1)
        let (v, r3) ← jVal f (jskipWs r2)
        match jskipWs r3 with
        | '}' :: r4 => some (Json.jobj (objUpd acc k v), r4)
        | ',' :: r4 => jMembers f (jskipWs r4) false (objUpd acc k v)
        | _ => none
    | _ => none

/-- Array elements after `[` (whitespace skipped); `]` may only follow the
opening bracket or a parsed element, never a comma. -/
def jElems (fuel : Nat) (s : List Char) (first : Bool)
    (acc : List Json) : Option (Json × List Char) :=
  match fuel with
  | 0 => none
  | f + 1 =>
    match s, first with
    | ']' :: r, true => some (Json.jarr acc.reverse, r)
    | s, _ => do
        let (v, r1) ← jVal f s
        match jskipWs r1 with
        | ']' :: r2 => some (Json.jarr (v :: acc).reverse, r2)
        | ',' :: r2 => jElems f (jskipWs r2) false (v :: acc)
        | _ => none

end

/-- `json.loads`: decode one value, allowing surrounding whitespace and
requiring the whole input to be consumed. The fuel bound exceeds the
decoder's recursion depth, which consumes at least one character per nested
call. -/
def jloads (s : List Char) : Option Json :=
  match jVal (2 * s.length + 16) (jskipWs s) with
  | some (v, r) => if (jskipWs r).isEmpty then some v else none
  | none => none

/-- `JSON_RE.search(msg)` for `JSON_RE = (\{.*\})`: the leftmost match of the
pattern spans from the first `{` of the message to the last `}` after it
(`.*` is greedy and backtracks to the final `}`). Returns the matched
substring, or `none` when no `}` follows the first `{`. `msg` never contains
a newline here, since the `msg` group of `LINE_RE` cannot match one. -/
def jsonBlob (msg : List Char) : Option (List Char) :=
  match msg.dropWhile (fun c => c ≠ '{') with
  | [] => none
  | _ :: tail =>
      let rev := tail.reverse.dropWhile (fun c => c ≠ '}')
      if rev.isEmpty then none else some ('{' :: rev.reverse)

/-- The structured output record built by `parse_line`: the dict with keys
`ts`, `thread`, `level`, `target`, `line`, `msg`, plus the optional keys
`json`, `event` and the seven allow-listed payload fields (absent key =
`none`). -/
structure Rec where
  ts : String
  thread : String
  level : String
  target : String
  line : Nat
  msg : String
  json : Option Json
  event : Option String
  epoch : Option Json
  round : Option Json
  reason : Option Json
  remote_peer : Option Json
  block_round : Option Json
  block_epoch : Option Json
  block_author : Option Json
deriving Repr

/-- Field of the payload dict, when the payload decoded to a dict and has
the key: the value `payload[k]` that `parse_line` copies into the record. -/
def pget (p : Option Json) (k : String) : Option Json :=
  match p with
  | some (Json.jobj ms) => objGet ms k.data
  | _ => none

/-- `parse_line`: structural match via `LINE_RE`, optional embedded JSON
payload, keyword-based keep/drop decision, and record construction. The
Python variable `event` holds `payload.get("event")`; only a `str` value
ever passes `isinstance(event, str)`, so the model keeps just the string
case. -/
def parse_line (line : String) : Option Rec :=
  match structMatch (rstripNl line.data) with
  | none => none
  | some g =>
    let payload : Option Json := (jsonBlob g.msg).bind jloads
    let eventStr : Option String :=
      match payload with
      | some (Json.jobj ms) =>
          match objGet ms "event".data with
          | some (Json.jstr s) => some (String.mk s)
          | _ => none
      | _ => none
    let keep :=
      (match eventStr with
       | some e => kwMatch e.data
       | none => false) || kwMatch g.msg
    if keep then
      some { ts := String.mk g.ts, thread := String.mk g.thr,
             level := String.mk g.level, target := String.mk g.target,
             line := natOfDigits g.lineNo, msg := String.mk g.msg,
             json := payload, event := eventStr,
             epoch := pget payload "epoch", round := pget payload "round",
             reason := pget payload "reason",
             remote_peer := pget payload "remote_peer",
             block_round := pget payload "block_round",
             block_epoch := pget payload "block_epoch",
             block_author := pget payload "block_author" }
    else none

/-- A directory tree: regular files carry the list of text lines the Python
text iterator would yield for them (decoding with `errors="replace"` is
absorbed into the model, which starts from decoded text). -/
inductive FSTree where
  | file (name : String) (lines : List String)
  | dir (name : String) (children : List FSTree)
deriving Repr

def FSTree.name : FSTree → String
  | .file n _ => n
  | .dir n _ => n

def FSTree.isDir : FSTree → Bool
  | .dir _ _ => true
  | .file _ _ => false

def FSTree.isFile : FSTree → Bool
  | .file _ _ => true
  | .dir _ _ => false

def FSTree.children : FSTree → List FSTree
  | .file _ _ => []
  | .dir _ cs => cs

mutual

/-- `Path.rglob("*")` on a directory whose own path is `dp`: all entries of
the directory first (in listing order), then, depth first and in listing
order, the entries of each subdirectory. Returns (path, entry) pairs. -/
def rgTree (dp : String) : FSTree → List (String × FSTree)
  | .file _ _ => []
  | .dir _ cs => cs.map (fun c => (dp ++ "/" ++ c.name, c)) ++ rgList dp cs

/-- Recursion of `rgTree` over the children of a directory. -/
def rgList (dp : String) : List FSTree → List (String × FSTree)
  | [] => []
  | c :: cs => rgTree (dp ++ "/" ++ c.name) c ++ rgList dp cs

end

/-- `NODE_FROM_FILENAME_RE`: anchored case-insensitive match of
`(stdout|stderr)_(\d+)\.log` against a file name; yields the node id,
`int` of the digit group. -/
def nodeFromFilename (n : String) : Option Nat :=
  let l := n.data.map Char.toLower
  if leadMatch "stdout_".data l || leadMatch "stderr_".data l then
    let r := l.drop 7
    let ds := r.takeWhile Char.isDigit
    if ds.isEmpty then none
    else if r.dropWhile Char.isDigit = ".log".data then some (natOfDigits ds)
    else none
  else none

/-- `looks_like_run_dir`: some regular file below `d` (any depth) has a
`stdout_i.log` / `stderr_i.log` name. -/
def looks_like_run_dir (d : FSTree) : Bool :=
  (rgTree "" d).any (fun e => e.2.isFile && (nodeFromFilename e.2.name).isSome)

/-- Lexicographic code-point order on character lists, the order Python uses
to compare the path strings of siblings (which share their parent prefix, so
it is the order of their names). -/
def lexLe : List Char → List Char → Bool
  | [], _ => true
  | _ :: _, [] => false
  | a :: as, b :: bs =>
      if a.toNat < b.toNat then true
      else if b.toNat < a.toNat then false
      else lexLe as bs

/-- Insert into a sorted list, before the first entry it is `lexLe`-below
(stable, like Python's sort). -/
def insSorted (x : FSTree) : List FSTree → List FSTree
  | [] => [x]
  | y :: ys =>
      if lexLe x.name.data y.name.data then x :: y :: ys else y :: insSorted x ys

/-- `sorted(...)` by name: insertion sort. -/
def sortByName (l : List FSTree) : List FSTree := l.foldr insSorted []

/-- `expected_run_prefix()`: the hint prefix, present only when both
environment values are truthy (set and nonempty — Python truthiness). -/
def expectedRunPfx (testName schedType : Option String) : Option String :=
  match testName, schedType with
  | some tn, some st2 =>
      if tn.isEmpty || st2.isEmpty then none else some (tn ++ "_" ++ st2 ++ "_")
  | _, _ => none

/-- `str.startswith`. -/
def startsWithS (pfx s : String) : Bool := leadMatch pfx.data s.data

/-- `find_run_dirs`: hinted prefix filter, autodetection fallback, then the
root itself, as in the source; returns (path, directory) pairs. -/
def find_run_dirs (rootPath : String) (root : FSTree) (tn st2 : Option String) :
    List (String × FSTree) :=
  let candidates := sortByName (root.children.filter FSTree.isDir)
  let hinted :=
    match expectedRunPfx tn st2 with
    | some pfx =>
        (candidates.filter (fun (d : FSTree) => startsWithS pfx d.name)).filter looks_like_run_dir
    | none => []
  if !hinted.isEmpty then hinted.map (fun d => (rootPath ++ "/" ++ d.name, d))
  else
    let auto := candidates.filter looks_like_run_dir
    if !auto.isEmpty then auto.map (fun d => (rootPath ++ "/" ++ d.name, d))
    else if looks_like_run_dir root then [(rootPath, root)]
    else []

/-- `iter_log_files`: the `(file path, lines, node id)` stream, i.e. the
`rglob` entries restricted to regular files whose names match
`NODE_FROM_FILENAME_RE`. -/
def iter_log_files (rootPath : String) (root : FSTree) :
    List (String × List String × Nat) :=
  (rgTree rootPath root).filterMap (fun e =>
    match e.2 with
    | .file n ls => (nodeFromFilename n).map (fun i => (e.1, ls, i))
    | .dir _ _ => none)

/-- Enriched record as written by `write_record`: the parse record plus the
three provenance fields added before serialization. One `ERec` in a sink
list models one serialized JSONL line (`json.dumps` emits exactly one line
per record, escaping any newline inside strings). -/
structure ERec where
  lrec : Rec
  source_file : String
  run_dir : String
  node : Nat
deriving Repr

/-- The pretty line written for a record: `f"{ts} {msg}"`. -/
def prettyLine (r : Rec) : String := r.ts ++ " " ++ r.msg

/-- State of one `filter_one_run_dir` call: the per-node sinks in creation
order (jsonl record list and pretty line list per node), the two combined
sinks, the output files opened so far in creation order, and the counters. -/
structure RunResult where
  nodes : List (Nat × (List ERec × List String))
  allJ : List ERec
  allT : List String
  created : List String
  scanned : Nat
  kept : Nat
deriving Repr

/-- Initial state: the combined sinks are opened (mode `w`) before any file
is read; the per-node writer map starts empty. -/
def initRun : RunResult :=
  { nodes := [], allJ := [], allT := [],
    created := ["all_nodes.jsonl", "all_nodes.log"], scanned := 0, kept := 0 }

/-- Lookup in the per-node writer map. -/
def nodeLookup (ns : List (Nat × (List ERec × List String))) (i : Nat) :
    Option (List ERec × List String) :=
  match ns with
  | [] => none
  | (j, p) :: rest => if j = i then some p else nodeLookup rest i

/-- Append one record and one pretty line to node `i`'s sinks. -/
def nodeApp (ns : List (Nat × (List ERec × List String))) (i : Nat)
    (e : ERec) (t : String) : List (Nat × (List ERec × List String)) :=
  match ns with
  | [] => []
  | (j, (js, ts)) :: rest =>
      if j = i then (j, (js ++ [e], ts ++ [t])) :: rest
      else (j, (js, ts)) :: nodeApp rest i e t

/-- File names of node `i`'s sinks. -/
def nodeJName (i : Nat) : String := "node" ++ toString i ++ ".jsonl"
def nodeTName (i : Nat) : String := "node" ++ toString i ++ ".log"

/-- The guard `if level_set and rec["level"] not in level_set: continue`:
skip exactly when a level set is present, nonempty (Python truthiness), and
does not contain the record's level. -/
def levelSkip (levelSet : Option (List String)) (lv : String) : Bool :=
  match levelSet with
  | none => false
  | some s => !s.isEmpty && !(s.contains lv)

/-- Body of the per-line loop of `filter_one_run_dir`: count the line, parse
and filter it, create the node's writers on first use (`get_writers`), and
fan the accepted record out to the per-node and combined sinks
(`write_record` twice). -/
def stepLine (runName : String) (fpath : String) (node : Nat)
    (levelSet : Option (List String)) (st : RunResult) (line : String) :
    RunResult :=
  let st := { st with scanned := st.scanned + 1 }
  match parse_line line with
  | none => st
  | some rec =>
    if levelSkip levelSet rec.level then st
    else
      let e : ERec := ⟨rec, fpath, runName, node⟩
      let t := prettyLine rec
      let (ns, created) :=
        match nodeLookup st.nodes node with
        | some _ => (st.nodes, st.created)
        | none => (st.nodes ++ [(node, ([], []))],
                   st.created ++ [nodeJName node, nodeTName node])
      { st with nodes := nodeApp ns node e t, created := created,
                allJ := st.allJ ++ [e], allT := st.allT ++ [t],
                kept := st.kept + 1 }

/-- Process one log file of the stream: fold the line loop over its lines. -/
def stepFile (runName : String) (levelSet : Option (List String))
    (st : RunResult) (f : String × List String × Nat) : RunResult :=
  f.2.1.foldl (stepLine runName f.1 f.2.2 levelSet) st

/-- `filter_one_run_dir` (no I/O failures): stream the node log files of the
run directory and fold the per-file loop. -/
def filter_one_run_dir (runPath : String) (runDir : FSTree)
    (levelSet : Option (List String)) : RunResult :=
  (iter_log_files runPath runDir).foldl (stepFile runDir.name levelSet) initRun

/-- Python `str.strip()` (ASCII whitespace). -/
def pyStrip (s : String) : String :=
  String.mk (((s.data.dropWhile pyWs).reverse.dropWhile pyWs).reverse)

/-- Python `str.upper()` (ASCII). -/
def pyUpper (s : String) : String := String.mk (s.data.map Char.toUpper)

/-- Python `str.split(",")`. -/
def splitComma : List Char → List (List Char)
  | [] => [[]]
  | c :: r =>
      if c = ',' then [] :: splitComma r
      else
        match splitComma r with
        | [] => [[c]]
        | g :: gs => (c :: g) :: gs

/-- The `--levels` handling of `main`: `None` stays `None`, an empty string
is falsy and also yields `None`, otherwise the comma-separated entries are
stripped, the empty ones discarded, and the rest uppercased (the resulting
set may be empty, e.g. for the argument `","`). Membership semantics of the
Python set are preserved by retaining a list. -/
def parseLevels (arg : Option String) : Option (List String) :=
  match arg with
  | none => none
  | some s =>
      if s.isEmpty then none
      else some ((((splitComma s.data).map (fun x => pyStrip (String.mk x))).filter
                    (fun x => !x.isEmpty)).map pyUpper)

/-- `main` after argument parsing (the fatal not-a-directory exit aside):
resolve the run directories, process each, and sum the counts. Returns the
per-run-directory results as (run dir path, result) together with the global
(scanned, kept) totals. -/
def process (rootPath : String) (root : FSTree) (tn st2 : Option String)
    (levelsArg : Option String) : List (String × RunResult) × Nat × Nat :=
  let levelSet := parseLevels levelsArg
  let results := (find_run_dirs rootPath root tn st2).map
    (fun rd => (rd.1, filter_one_run_dir rd.1 rd.2 levelSet))
  (results, (results.map (fun r => r.2.scanned)).sum,
   (results.map (fun r => r.2.kept)).sum)

/-- Contents of one output file. -/
inductive SinkData where
  | jsonl (rs : List ERec)
  | text (ls : List String)
deriving Repr

/-- The output-file state of the filesystem: full path to contents. -/
def Store := List (String × SinkData)

/-- Read a file's contents. -/
def storeGet (st : Store) (k : String) : Option SinkData :=
  match st with
  | [] => none
  | (k2, v) :: rest => if k2 = k then some v else storeGet rest k

/-- Effect of `open(k, "w")` followed by appending writes and `close`:
the file's final contents are replaced by what was written. -/
def storeSet (st : Store) (k : String) (v : SinkData) : Store :=
  match st with
  | [] => [(k, v)]
  | (k2, v2) :: rest =>
      if k2 = k then (k2, v) :: rest else (k2, v2) :: storeSet rest k v

/-- The (relative file name, final contents) pairs one run directory's
processing writes: every sink is opened with mode `w` and receives exactly
the writes recorded in the result. -/
def runFiles (R : RunResult) : List (String × SinkData) :=
  [("all_nodes.jsonl", SinkData.jsonl R.allJ), ("all_nodes.log", SinkData.text R.allT)]
    ++ R.nodes.flatMap (fun n =>
        [(nodeJName n.1, SinkData.jsonl n.2.1), (nodeTName n.1, SinkData.text n.2.2)])

/-- All file writes of one invocation, with absolute paths under each run
directory's `<out_subdir>`. -/
def allWrites (rootPath : String) (root : FSTree) (tn st2 : Option String)
    (levelsArg : Option String) (outSubdir : String) : List (String × SinkData) :=
  (find_run_dirs rootPath root tn st2).flatMap (fun rd =>
    (runFiles (filter_one_run_dir rd.1 rd.2 (parseLevels levelsArg))).map
      (fun kv => (rd.1 ++ "/" ++ outSubdir ++ "/" ++ kv.1, kv.2)))

/-- One invocation against an initial output-file state: perform every write
and return the final state with the global counts. -/
def processStore (rootPath : String) (root : FSTree) (tn st2 : Option String)
    (levelsArg : Option String) (outSubdir : String) (s : Store) :
    Store × Nat × Nat :=
  ((allWrites rootPath root tn st2 levelsArg outSubdir).foldl
      (fun st kv => storeSet st kv.1 kv.2) s,
   (process rootPath root tn st2 levelsArg).2)

/-- The enriched records one line contributes (none, or exactly one): the
line parses, passes the relevance filter, and passes the level filter. -/
def lineKept (runName : String) (fpath : String) (node : Nat)
    (levelSet : Option (List String)) (line : String) : List ERec :=
  match parse_line line with
  | none => []
  | some rec =>
      if levelSkip levelSet rec.level then []
      else [⟨rec, fpath, runName, node⟩]

/-- Specification-side stream of accepted records of one run directory: for
every file of the log stream, in order, the enriched records of the lines
that parse, pass the relevance filter and pass the level filter. -/
def keptRecs (runPath : String) (runDir : FSTree)
    (levelSet : Option (List String)) : List ERec :=
  (iter_log_files runPath runDir).flatMap (fun f =>
    f.2.1.flatMap (lineKept runDir.name f.1 f.2.2 levelSet))

/-- The pretty serialization of an enriched record. -/
def pretty (e : ERec) : String := prettyLine e.lrec

/-- Total number of lines of the log stream of one run directory. -/
def totalLines (runPath : String) (runDir : FSTree) : Nat :=
  ((iter_log_files runPath runDir).map (fun f => f.2.1.length)).sum

/-!
Fallible-write model for the sink-failure claim. Writes to the four sinks
are numbered in program order (per record: node jsonl, node pretty,
combined jsonl, combined pretty); the single write whose global index equals
`failAt` raises `OSError`. The code's per-file `try`/`except OSError`
catches the exception, abandons the rest of that file, and `continue`s with
the next file; writes already performed for the record persist.
-/

/-- Append a record to node `i`'s jsonl sink only (one `jf.write`). -/
def nodeAppJ (ns : List (Nat × (List ERec × List String))) (i : Nat) (e : ERec) :
    List (Nat × (List ERec × List String)) :=
  match ns with
  | [] => []
  | (j, (js, ts)) :: rest =>
      if j = i then (j, (js ++ [e], ts)) :: rest else (j, (js, ts)) :: nodeAppJ rest i e

/-- Append a pretty line to node `i`'s text sink only (one `tf.write`). -/
def nodeAppT (ns : List (Nat × (List ERec × List String))) (i : Nat) (t : String) :
    List (Nat × (List ERec × List String)) :=
  match ns with
  | [] => []
  | (j, (js, ts)) :: rest =>
      if j = i then (j, (js, ts ++ [t])) :: rest else (j, (js, ts)) :: nodeAppT rest i t

/-- Fallible state: the run state plus the global write counter. -/
structure FState where
  base : RunResult
  wc : Nat
deriving Repr

/-- One write attempt: at index `failAt` the write raises (second component
`true`) and nothing is appended; otherwise `app` extends the state. -/
def tryWrite (failAt : Nat) (st : FState) (app : RunResult → RunResult) :
    FState × Bool :=
  if st.wc = failAt then ({ st with wc := st.wc + 1 }, true)
  else ({ base := app st.base, wc := st.wc + 1 }, false)

/-- Per-line body under the fallible-write model; the `Bool` reports whether
an `OSError` escaped the line (aborting the enclosing file). -/
def stepLineF (failAt : Nat) (runName : String) (fpath : String) (node : Nat)
    (levelSet : Option (List String)) (st : FState) (line : String) :
    FState × Bool :=
  let st := { st with base := { st.base with scanned := st.base.scanned + 1 } }
  match parse_line line with
  | none => (st, false)
  | some rec =>
    if levelSkip levelSet rec.level then (st, false)
    else
      let e : ERec := ⟨rec, fpath, runName, node⟩
      let t := prettyLine rec
      let st :=
        match nodeLookup st.base.nodes node with
        | some _ => st
        | none => { st with base := { st.base with
            nodes := st.base.nodes ++ [(node, ([], []))],
            created := st.base.created ++ [nodeJName node, nodeTName node] } }
      let (st, r1) := tryWrite failAt st (fun b => { b with nodes := nodeAppJ b.nodes node e })
      if r1 then (st, true) else
      let (st, r2) := tryWrite failAt st (fun b => { b with nodes := nodeAppT b.nodes node t })
      if r2 then (st, true) else
      let (st, r3) := tryWrite failAt st (fun b => { b with allJ := b.allJ ++ [e] })
      if r3 then (st, true) else
      let (st, r4) := tryWrite failAt st (fun b => { b with allT := b.allT ++ [t] })
      if r4 then (st, true) else
      ({ st with base := { st.base with kept := st.base.kept + 1 } }, false)

/-- The line loop of one file: stops at the first raised write error. -/
def runLinesF (failAt : Nat) (runName : String) (fpath : String) (node : Nat)
    (levelSet : Option (List String)) (st : FState) :
    List String → FState × Bool
  | [] => (st, false)
  | l :: ls =>
      match stepLineF failAt runName fpath node levelSet st l with
      | (st2, true) => (st2, true)
      | (st2, false) => runLinesF failAt runName fpath node levelSet st2 ls

/-- `filter_one_run_dir` under the fallible-write model: the per-file
`try`/`except OSError: continue` swallows a raised write error and moves on
to the next file. -/
def filterRunF (failAt : Nat) (runPath : String) (runDir : FSTree)
    (levelSet : Option (List String)) : RunResult :=
  ((iter_log_files runPath runDir).foldl (fun st f =>
      (runLinesF failAt runDir.name f.1 f.2.2 levelSet st f.2.1).1)
    { base := initRun, wc := 0 }).base

/-- Shape of a `LINE_RE` timestamp, stated declaratively: the strict date
part, a `T`, a nonempty run over `[0-9:.]`, and a final `Z` — exactly the
`\d{4}-\d{2}-\d{2}T[0-9:.]+Z` of the source. -/
def TsShape (ts : List Char) : Prop :=
  ∃ d1 d2 d3 tm,
    ts = d1 ++ '-' :: (d2 ++ '-' :: (d3 ++ 'T' :: (tm ++ ['Z']))) ∧
    d1.length = 4 ∧ (∀ c ∈ d1, c.isDigit) ∧
    d2.length = 2 ∧ (∀ c ∈ d2, c.isDigit) ∧
    d3.length = 2 ∧ (∀ c ∈ d3, c.isDigit) ∧
    tm ≠ [] ∧ (∀ c ∈ tm, tsClass c)

/-- The lexical grammar of `LINE_RE`, stated declaratively: the line splits
into a timestamp, whitespace, a bracketed thread, whitespace, an uppercase
level, whitespace, a non-whitespace target, a colon, a digit run (the source
line number), whitespace, and a newline-free message, with the record fields
taken from the respective parts. -/
def LineGrammar (s : List Char) (r : Rec) : Prop :=
  ∃ ts w1 thr w2 lvl w3 tgt num w4 msg,
    s = ts ++ (w1 ++ ('[' :: (thr ++ (']' :: (w2 ++ (lvl ++ (w3 ++
          (tgt ++ (':' :: (num ++ (w4 ++ msg))))))))))) ∧
    TsShape ts ∧
    w1 ≠ [] ∧ (∀ c ∈ w1, pyWs c) ∧
    thr ≠ [] ∧ (∀ c ∈ thr, c ≠ ']') ∧
    w2 ≠ [] ∧ (∀ c ∈ w2, pyWs c) ∧
    lvl ≠ [] ∧ (∀ c ∈ lvl, c.isUpper) ∧
    w3 ≠ [] ∧ (∀ c ∈ w3, pyWs c) ∧
    tgt ≠ [] ∧ (∀ c ∈ tgt, pyWs c = false) ∧
    num ≠ [] ∧ (∀ c ∈ num, c.isDigit) ∧
    w4 ≠ [] ∧ (∀ c ∈ w4, pyWs c) ∧
    '
' ∉ msg ∧
    r.ts = String.mk ts ∧ r.thread = String.mk thr ∧ r.level = String.mk lvl ∧
    r.target = String.mk tgt ∧ r.line = natOfDigits num ∧ r.msg = String.mk msg

/-- The strict timestamp shape `YYYY-MM-DDTHH:MM:SS.ffffffZ` claimed by the
specification (modelled from the spec's words, for comparison with the
source's looser pattern). -/
def strictTs (ts : List Char) : Bool :=
  (do
    let (_, r1) ← matchCount Char.isDigit 4 ts
    let r2 ← expectChar '-' r1
    let (_, r3) ← matchCount Char.isDigit 2 r2
    let r4 ← expectChar '-' r3
    let (_, r5) ← matchCount Char.isDigit 2 r4
    let r6 ← expectChar 'T' r5
    let (_, r7) ← matchCount Char.isDigit 2 r6
    let r8 ← expectChar ':' r7
    let (_, r9) ← matchCount Char.isDigit 2 r8
    let r10 ← expectChar ':' r9
    let (_, r11) ← matchCount Char.isDigit 2 r10
    let r12 ← expectChar '.' r11
    let (_, r13) ← matchCount Char.isDigit 6 r12
    let r14 ← expectChar 'Z' r13
    if r14.isEmpty then some () else none : Option Unit).isSome

/-- The first tier of the relevance filter as a predicate of the decoded
payload: it is a dict, its `event` value is a string, and that string
contains a keyword. -/
def eventKwB (p : Option Json) : Bool :=
  match p with
  | some (Json.jobj ms) =>
      match objGet ms "event".data with
      | some (Json.jstr s) => kwMatch s
      | _ => false
  | _ => false

/-- Witness line for the payload claim: a structurally valid line whose
message is exactly one JSON object. -/
def exLineJ : String :=
  "2026-02-17T11:09:41.177185Z [c] INFO a.rs:10 \x7b\"event\":\"Vote\",\"epoch\":2,\"round\":51\x7d"

/-- The `LINE_RE` groups of `exLineJ`. -/
def exGroupsJ : Groups :=
  ⟨"2026-02-17T11:09:41.177185Z".data, "c".data, "INFO".data, "a.rs".data,
    "10".data, "\x7b\"event\":\"Vote\",\"epoch\":2,\"round\":51\x7d".data⟩

/-- The message of `exLineJ` between its braces. -/
def exMidJ : List Char := "\"event\":\"Vote\",\"epoch\":2,\"round\":51".data

/-- The decoded payload members of `exLineJ`. -/
def exMsJ : List (List Char × Json) :=
  [("event".data, Json.jstr "Vote".data), ("epoch".data, Json.jint 2),
   ("round".data, Json.jint 51)]

/-- Specification-side description of run-directory autodetection (steps
2–4 of the resolution precedence): all immediate subdirectories passing the
run-directory predicate when that set is non-empty, else the root itself
when it passes, else nothing. Stated via membership so that it does not fix
an order. -/
def AutoRunDirsSpec (rootPath : String) (root : FSTree)
    (R : List (String × FSTree)) : Prop :=
  if root.children.any (fun d => d.isDir && looks_like_run_dir d) then
    (∀ d, d ∈ R.map Prod.snd ↔
      (d ∈ root.children ∧ d.isDir = true ∧ looks_like_run_dir d = true)) ∧
    (∀ e ∈ R, e.1 = rootPath ++ "/" ++ e.2.name)
  else if looks_like_run_dir root then R = [(rootPath, root)]
  else R = []

/-- Specification-side description of the full four-step resolution
precedence: when both hints are truthy and some immediate subdirectory has
the `<test_name>_<sched_type>_` prefix and passes the run-directory
predicate, the result is exactly that set; otherwise autodetection applies. -/
def RunDirsSpec (rootPath : String) (root : FSTree) (tn st2 : Option String)
    (R : List (String × FSTree)) : Prop :=
  match expectedRunPfx tn st2 with
  | some pfx =>
      if root.children.any (fun d =>
          d.isDir && startsWithS pfx d.name && looks_like_run_dir d) then
        (∀ d, d ∈ R.map Prod.snd ↔
          (d ∈ root.children ∧ d.isDir = true ∧ startsWithS pfx d.name = true ∧
            looks_like_run_dir d = true)) ∧
        (∀ e ∈ R, e.1 = rootPath ++ "/" ++ e.2.name)
      else AutoRunDirsSpec rootPath root R
  | none => AutoRunDirsSpec rootPath root R

/-- Witness tree for run-directory resolution: two autodetectable run
directories among decoys. -/
def exRoot : FSTree :=
  .dir "20260217"
    [.dir "b_run" [.file "stdout_1.log" []],
     .dir "a_run" [.file "stderr_0.log" []],
     .dir "zzz" [],
     .file "x.txt" []]

/-- Witness run directory: one acceptable line in each of `stdout_0.log`
and `stderr_1.log`. -/
def exRun2 : FSTree :=
  .dir "run"
    [.file "stdout_0.log" ["2026-02-17T11:09:41.177185Z [c] INFO a.rs:10 NewRound started"],
     .file "stderr_1.log" ["2026-02-17T11:09:42.000000Z [d] WARN b.rs:20 pacemaker tick"]]

/-- Invariant of the `filter_one_run_dir` loop state: the combined pretty
sink mirrors the combined structured sink; `kept` counts the records
written; the created-file list is the two eagerly opened combined sinks
followed by the lazily opened per-node files; and each node's sinks hold
exactly the records of that node, in order, with their pretty lines. -/
def Inv (st : RunResult) : Prop :=
  st.allT = st.allJ.map pretty ∧
  st.kept = st.allJ.length ∧
  st.created = ["all_nodes.jsonl", "all_nodes.log"] ++
    st.nodes.flatMap (fun n => [nodeJName n.1, nodeTName n.1]) ∧
  ∀ i, nodeLookup st.nodes i =
    (if (st.allJ.filter (fun e => e.node = i)).isEmpty then none
     else some (st.allJ.filter (fun e => e.node = i),
                (st.allJ.filter (fun e => e.node = i)).map pretty))

/-! ### Substring search characterization -/

theorem leadMatch_iff (pat s : List Char) :
    leadMatch pat s = true ↔ ∃ rest, s = pat ++ rest := by
  induction pat generalizing s with
  | nil => simp [leadMatch]
  | cons p ps ih =>
      cases s with
      | nil => simp [leadMatch]
      | cons c cs =>
          simp only [leadMatch, Bool.and_eq_true, decide_eq_true_eq, ih,
            List.cons_append, List.cons.injEq]
          constructor
          · rintro ⟨rfl, rest, rfl⟩
            exact ⟨rest, rfl, rfl⟩
          · rintro ⟨rest, rfl, rfl⟩
            exact ⟨rfl, rest, rfl⟩

theorem occursIn_iff (pat s : List Char) :
    occursIn pat s = true ↔ ∃ pre post, s = pre ++ pat ++ post := by
  induction s with
  | nil =>
      simp only [occursIn, List.isEmpty_iff]
      constructor
      · rintro rfl
        exact ⟨[], [], rfl⟩
      · rintro ⟨pre, post, h⟩
        rcases List.append_eq_nil.mp (List.append_eq_nil.mp h.symm).1 with ⟨-, h2⟩
        exact h2
  | cons c cs ih =>
      simp only [occursIn, Bool.or_eq_true, leadMatch_iff, ih]
      constructor
      · rintro (⟨rest, h⟩ | ⟨pre, post, h⟩)
        · exact ⟨[], rest, by simp [h]⟩
        · exact ⟨c :: pre, post, by simp [h]⟩
      · rintro ⟨pre, post, h⟩
        cases pre with
        | nil => exact Or.inl ⟨post, by simpa using h⟩
        | cons p pre' =>
            simp only [List.cons_append, List.cons.injEq] at h
            exact Or.inr ⟨pre', post, h.2⟩

theorem kwMatch_iff (s : List Char) :
    kwMatch s = true ↔
      ∃ k ∈ EVENT_KEYWORDS, ∃ pre post, s = pre ++ k.data ++ post := by
  simp only [kwMatch, List.any_eq_true, occursIn_iff]

/-! ### Soundness of the `LINE_RE` matcher -/

theorem matchCount_sound (p : Char → Bool) (n : Nat) (s a b : List Char)
    (h : matchCount p n s = some (a, b)) :
    s = a ++ b ∧ a.length = n ∧ ∀ c ∈ a, p c := by
  induction n generalizing s a b with
  | zero =>
      simp only [matchCount, Option.some.injEq, Prod.mk.injEq] at h
      simp [← h.1, ← h.2]
  | succ n ih =>
      cases s with
      | nil => simp [matchCount] at h
      | cons c t =>
          simp only [matchCount] at h
          by_cases hp : p c
          · simp only [hp, if_pos, Option.map_eq_some'] at h
            obtain ⟨⟨a', b'⟩, hab, h2⟩ := h
            simp only [Prod.mk.injEq] at h2
            obtain ⟨rfl, rfl⟩ := h2
            obtain ⟨h3, h4, h5⟩ := ih t a' b' hab
            refine ⟨by simp [h3], by simp [h4], ?_⟩
            intro d hd
            rcases List.mem_cons.mp hd with rfl | hd2
            · exact hp
            · exact h5 d hd2
          · simp [hp] at h

theorem expectChar_sound (c : Char) (s r : List Char)
    (h : expectChar c s = some r) : s = c :: r := by
  cases s with
  | nil => simp [expectChar] at h
  | cons d t =>
      simp only [expectChar] at h
      split at h
      · rename_i hdc
        obtain rfl : t = r := Option.some.inj h
        rw [hdc]
      · exact absurd h (by simp)

theorem plusRun_sound (p : Char → Bool) (s a b : List Char)
    (h : plusRun p s = some (a, b)) :
    s = a ++ b ∧ a ≠ [] ∧ ∀ c ∈ a, p c := by
  simp only [plusRun] at h
  by_cases he : (s.takeWhile p).isEmpty
  · simp [he] at h
  · simp only [he, Bool.false_eq_true, if_false, Option.some.injEq, Prod.mk.injEq] at h
    obtain ⟨rfl, rfl⟩ := h
    refine ⟨(List.takeWhile_append_dropWhile p s).symm, ?_, ?_⟩
    · simpa [List.isEmpty_iff] using he
    · intro c hc
      exact List.mem_takeWhile_imp hc

theorem matchTs_sound (s ts rest : List Char) (h : matchTs s = some (ts, rest)) :
    s = ts ++ rest ∧ TsShape ts := by
  simp only [matchTs, bind, Option.bind_eq_some] at h
  obtain ⟨⟨d1, r1⟩, h1, h⟩ := h
  obtain ⟨r2, h2, h⟩ := h
  obtain ⟨⟨d2, r3⟩, h3, h⟩ := h
  obtain ⟨r4, h4, h⟩ := h
  obtain ⟨⟨d3, r5⟩, h5, h⟩ := h
  obtain ⟨r6, h6, h⟩ := h
  obtain ⟨⟨tm, r7⟩, h7, h⟩ := h
  obtain ⟨r8, h8, h⟩ := h
  obtain ⟨rfl, rfl⟩ : d1 ++ '-' :: d2 ++ '-' :: d3 ++ 'T' :: tm ++ ['Z'] = ts ∧ r8 = rest := by
    simpa [Prod.ext_iff] using h
  obtain ⟨e1, l1, p1⟩ := matchCount_sound _ _ _ _ _ h1
  obtain e2 := expectChar_sound _ _ _ h2
  obtain ⟨e3, l3, p3⟩ := matchCount_sound _ _ _ _ _ h3
  obtain e4 := expectChar_sound _ _ _ h4
  obtain ⟨e5, l5, p5⟩ := matchCount_sound _ _ _ _ _ h5
  obtain e6 := expectChar_sound _ _ _ h6
  obtain ⟨e7, n7, p7⟩ := plusRun_sound _ _ _ _ h7
  obtain e8 := expectChar_sound _ _ _ h8
  dsimp only at e1 e2 e3 e4 e5 e6 e7 e8
  constructor
  · simp [e1, e2, e3, e4, e5, e6, e7, e8, List.append_assoc]
  · exact ⟨d1, d2, d3, tm, by simp [List.append_assoc], l1, p1, l3, p3, l5, p5, n7, p7⟩

theorem tryCont_sound (s ds w msg : List Char)
    (h : tryCont s = some (ds, w, msg)) :
    s = ':' :: (ds ++ (w ++ msg)) ∧ ds ≠ [] ∧ (∀ c ∈ ds, c.isDigit) ∧
      w ≠ [] ∧ (∀ c ∈ w, pyWs c) ∧ '
' ∉ msg := by
  cases s with
  | nil => simp [tryCont] at h
  | cons c r =>
      simp only [tryCont] at h
      split at h
      · rename_i hc
        subst hc
        split at h
        · exact absurd h (by simp)
        · rename_i ds' r1 h1
          split at h
          · exact absurd h (by simp)
          · rename_i w' r2 h2
            split at h
            · exact absurd h (by simp)
            · rename_i hnl
              obtain ⟨rfl, rfl, rfl⟩ : ds' = ds ∧ w' = w ∧ r2 = msg := by
                simpa [Prod.ext_iff] using h
              obtain ⟨e1, n1, p1⟩ := plusRun_sound _ _ _ _ h1
              obtain ⟨e2, n2, p2⟩ := plusRun_sound _ _ _ _ h2
              refine ⟨by simp [e1, e2], n1, p1, n2, p2, ?_⟩
              intro hmem
              exact hnl (by simpa [List.elem_iff] using hmem)
      · exact absurd h (by simp)

theorem targetLoop_sound (s : List Char) :
    ∀ acc tgt ds w msg, targetLoop acc s = some (tgt, ds, w, msg) →
      ∃ t2, tgt = acc.reverse ++ t2 ∧ s = t2 ++ ':' :: (ds ++ (w ++ msg)) ∧
        (∀ c ∈ t2, pyWs c = false) ∧ ds ≠ [] ∧ (∀ c ∈ ds, c.isDigit) ∧
        w ≠ [] ∧ (∀ c ∈ w, pyWs c) ∧ '
' ∉ msg := by
  induction s with
  | nil => intro acc tgt ds w msg h; simp [targetLoop] at h
  | cons c r ih =>
      intro acc tgt ds w msg h
      simp only [targetLoop] at h
      cases h1 : tryCont (c :: r) with
      | some p =>
          rw [h1] at h
          obtain ⟨ds', w', msg'⟩ := p
          obtain ⟨rfl, rfl, rfl, rfl⟩ :
              acc.reverse = tgt ∧ ds' = ds ∧ w' = w ∧ msg' = msg := by
            simpa [Prod.ext_iff] using h
          obtain ⟨e, n1, p1, n2, p2, hnl⟩ := tryCont_sound _ _ _ _ h1
          exact ⟨[], by simp, by simpa using e, by simp, n1, p1, n2, p2, hnl⟩
      | none =>
          rw [h1] at h
          simp only at h
          split at h
          · exact absurd h (by simp)
          · rename_i hws
            obtain ⟨t2, ht, he, hp, rest⟩ := ih (c :: acc) tgt ds w msg h
            refine ⟨c :: t2, ?_, by simp [he], ?_, rest⟩
            · simpa using ht
            · intro d hd
              rcases List.mem_cons.mp hd with rfl | hd2
              · simpa using hws
              · exact hp d hd2

theorem structMatch_sound (s : List Char) (g : Groups) (h : structMatch s = some g) :
    ∃ w1 w2 w3 w4,
      s = g.ts ++ (w1 ++ ('[' :: (g.thr ++ (']' :: (w2 ++ (g.level ++ (w3 ++
            (g.target ++ (':' :: (g.lineNo ++ (w4 ++ g.msg))))))))))) ∧
      TsShape g.ts ∧
      w1 ≠ [] ∧ (∀ c ∈ w1, pyWs c) ∧
      g.thr ≠ [] ∧ (∀ c ∈ g.thr, c ≠ ']') ∧
      w2 ≠ [] ∧ (∀ c ∈ w2, pyWs c) ∧
      g.level ≠ [] ∧ (∀ c ∈ g.level, c.isUpper) ∧
      w3 ≠ [] ∧ (∀ c ∈ w3, pyWs c) ∧
      g.target ≠ [] ∧ (∀ c ∈ g.target, pyWs c = false) ∧
      g.lineNo ≠ [] ∧ (∀ c ∈ g.lineNo, c.isDigit) ∧
      w4 ≠ [] ∧ (∀ c ∈ w4, pyWs c) ∧
      '
' ∉ g.msg := by
  simp only [structMatch, bind, Option.bind_eq_some] at h
  obtain ⟨⟨ts, r1⟩, h1, h⟩ := h
  obtain ⟨⟨w1, r2⟩, h2, h⟩ := h
  obtain ⟨r3, h3, h⟩ := h
  obtain ⟨⟨thr, r4⟩, h4, h⟩ := h
  obtain ⟨r5, h5, h⟩ := h
  obtain ⟨⟨w2, r6⟩, h6, h⟩ := h
  obtain ⟨⟨lvl, r7⟩, h7, h⟩ := h
  obtain ⟨⟨w3, r8⟩, h8, h⟩ := h
  dsimp only at h
  obtain ⟨e1, sh1⟩ := matchTs_sound _ _ _ h1
  obtain ⟨e2, n2, p2⟩ := plusRun_sound _ _ _ _ h2
  obtain e3 := expectChar_sound _ _ _ h3
  obtain ⟨e4, n4, p4⟩ := plusRun_sound _ _ _ _ h4
  obtain e5 := expectChar_sound _ _ _ h5
  obtain ⟨e6, n6, p6⟩ := plusRun_sound _ _ _ _ h6
  obtain ⟨e7, n7, p7⟩ := plusRun_sound _ _ _ _ h7
  obtain ⟨e8, n8, p8⟩ := plusRun_sound _ _ _ _ h8
  dsimp only at e1 e2 e3 e4 e5 e6 e7 e8
  cases hr8 : r8 with
  | nil => rw [hr8] at h; simp at h
  | cons c r9 =>
      rw [hr8] at h
      dsimp only at h
      split at h
      · exact absurd h (by simp)
      · rename_i hws
        cases htl : targetLoop [c] r9 with
        | none => rw [htl] at h; simp at h
        | some q =>
            rw [htl] at h
            obtain ⟨tgt, ds, w4, msg⟩ := q
            dsimp only at h
            obtain rfl : (⟨ts, thr, lvl, tgt, ds, msg⟩ : Groups) = g := Option.some.inj h
            obtain ⟨t2, htgt, he, hp, nds, pds, nw4, pw4, hnl⟩ :=
              targetLoop_sound r9 [c] tgt ds w4 msg htl
            simp only [List.reverse_cons, List.reverse_nil, List.nil_append] at htgt
            refine ⟨w1, w2, w3, w4, ?_, sh1, n2, p2, n4, ?_, n6, p6, n7, p7, n8, p8,
              ?_, ?_, nds, pds, nw4, pw4, hnl⟩
            · subst e1 e2 e3 e4 e5 e6 e7
              rw [e8, hr8, he, htgt]
              simp [List.append_assoc]
            · intro d hd
              have := p4 d hd
              simpa using this
            · subst htgt; simp
            · intro d hd
              subst htgt
              rcases List.mem_cons.mp hd with rfl | hd2
              · simpa using hws
              · exact hp d hd2

/-- The record fields a successful `parse_line` copies from the match. -/
theorem parse_line_groups (line : String) (r : Rec) (h : parse_line line = some r) :
    ∃ g, structMatch (rstripNl line.data) = some g ∧
      r.ts = String.mk g.ts ∧ r.thread = String.mk g.thr ∧
      r.level = String.mk g.level ∧ r.target = String.mk g.target ∧
      r.line = natOfDigits g.lineNo ∧ r.msg = String.mk g.msg := by
  cases hm : structMatch (rstripNl line.data) with
  | none => rw [parse_line, hm] at h; simp at h
  | some g =>
      rw [parse_line, hm] at h
      dsimp only at h
      split at h
      · obtain rfl := Option.some.inj h
        exact ⟨g, rfl, rfl, rfl, rfl, rfl, rfl, rfl⟩
      · exact absurd h (by simp)

/-- A structurally matched line is kept exactly when the two-tier keyword
test succeeds on (payload event, raw message). -/
theorem parse_line_isSome (line : String) (g : Groups)
    (h : structMatch (rstripNl line.data) = some g) :
    (parse_line line).isSome =
      (eventKwB ((jsonBlob g.msg).bind jloads) || kwMatch g.msg) := by
  rw [parse_line, h]
  dsimp only
  have hgen : ∀ (c : Bool) (x : Rec), (if c = true then some x else none).isSome = c := by
    intro c x
    cases c <;> simp
  cases hp : (jsonBlob g.msg).bind jloads with
  | none => rw [hgen]; simp [eventKwB]
  | some j =>
      cases j with
      | jobj ms =>
          cases he : objGet ms "event".data with
          | none => rw [hgen]; simp [eventKwB, he]
          | some v =>
              cases v <;> (rw [hgen]; simp [eventKwB, he])
      | jnull => rw [hgen]; simp [eventKwB]
      | jbool b => rw [hgen]; simp [eventKwB]
      | jint n => rw [hgen]; simp [eventKwB]
      | jnum raw => rw [hgen]; simp [eventKwB]
      | jstr s => rw [hgen]; simp [eventKwB]
      | jarr xs => rw [hgen]; simp [eventKwB]

theorem eventKwB_iff (p : Option Json) :
    eventKwB p = true ↔
      ∃ ms s, p = some (Json.jobj ms) ∧ objGet ms "event".data = some (Json.jstr s) ∧
        ∃ k ∈ EVENT_KEYWORDS, ∃ pre post, s = pre ++ k.data ++ post := by
  cases p with
  | none => simp [eventKwB]
  | some j =>
      cases j with
      | jobj ms =>
          cases he : objGet ms "event".data with
          | none =>
              simp only [eventKwB, he, Bool.false_eq_true, false_iff]
              rintro ⟨ms1, s1, hms, hobj, -⟩
              injection Option.some.inj hms with h2
              subst h2
              rw [he] at hobj
              exact absurd hobj (by simp)
          | some v =>
              cases v
              case jstr s =>
                  simp only [eventKwB, he, kwMatch_iff]
                  constructor
                  · intro hkw
                    exact ⟨ms, s, rfl, he, hkw⟩
                  · rintro ⟨ms1, s1, hms, hobj, hkw⟩
                    injection Option.some.inj hms with h2
                    subst h2
                    rw [he] at hobj
                    injection Option.some.inj hobj with h3
                    subst h3
                    exact hkw
              all_goals
                simp only [eventKwB, he, Bool.false_eq_true, false_iff]
              all_goals
                rintro ⟨ms1, s1, hms, hobj, -⟩
              all_goals
                injection Option.some.inj hms with h2
              all_goals
                subst h2
              all_goals
                rw [he] at hobj
              all_goals
                exact absurd (Option.some.inj hobj) (by simp)
      | jnull => simp [eventKwB]
      | jbool b => simp [eventKwB]
      | jint n => simp [eventKwB]
      | jnum raw => simp [eventKwB]
      | jstr s => simp [eventKwB]
      | jarr xs => simp [eventKwB]

/-- Claim C2: for every line that passes structural parsing, `parse_line`
accepts it iff (a) the decoded payload is a dict whose string-valued `event`
field contains some keyword of `EVENT_KEYWORDS` as a substring, or (b) the
raw message contains some keyword as a substring; otherwise it returns
`None` even when a valid payload is present. -/
theorem claim_C2 (line : String) (g : Groups)
    (h : structMatch (rstripNl line.data) = some g) :
    (parse_line line).isSome = true ↔
      ((∃ ms s, (jsonBlob g.msg).bind jloads = some (Json.jobj ms) ∧
          objGet ms "event".data = some (Json.jstr s) ∧
          ∃ k ∈ EVENT_KEYWORDS, ∃ pre post, s = pre ++ k.data ++ post) ∨
        (∃ k ∈ EVENT_KEYWORDS, ∃ pre post, g.msg = pre ++ k.data ++ post)) := by
  rw [parse_line_isSome line g h]
  rw [Bool.or_eq_true, eventKwB_iff, kwMatch_iff]

/-- Witness for C2 at a concrete line: the message carries no useful payload
but contains the keyword `NewRound`, so the record is kept. -/
theorem claim_C2_witness :
    ((parse_line "2026-02-17T11:09:41.177185Z [c] INFO a.rs:10 NewRound started").isSome = true ↔
      ((∃ ms s,
          (jsonBlob ("NewRound started".data)).bind jloads = some (Json.jobj ms) ∧
          objGet ms "event".data = some (Json.jstr s) ∧
          ∃ k ∈ EVENT_KEYWORDS, ∃ pre post, s = pre ++ k.data ++ post) ∨
        (∃ k ∈ EVENT_KEYWORDS, ∃ pre post,
          "NewRound started".data = pre ++ k.data ++ post))) ∧
    (parse_line "2026-02-17T11:09:41.177185Z [c] INFO a.rs:10 NewRound started").isSome = true := by
  constructor
  · exact claim_C2 "2026-02-17T11:09:41.177185Z [c] INFO a.rs:10 NewRound started"
      ⟨"2026-02-17T11:09:41.177185Z".data, "c".data, "INFO".data, "a.rs".data,
        "10".data, "NewRound started".data⟩ rfl
  · rfl

/-- Counterexample to claim C3 as stated: `parse_line` returns a record for
a line whose timestamp `2026-02-17T1Z` does not have the strict
`YYYY-MM-DDTHH:MM:SS.ffffffZ` shape — the source pattern only requires
`\d{4}-\d{2}-\d{2}T[0-9:.]+Z`. -/
theorem claim_C3_counterexample :
    ((parse_line "2026-02-17T1Z [t] INFO a:1 Vote").map
        (fun r => strictTs r.ts.data)) = some false ∧
      strictTs "2026-02-17T11:09:41.177185Z".data = true := by
  constructor <;> rfl

/-- Claim C3 (amended): `parse_line` returns a record only if the line
(after stripping trailing newlines) matches the lexical grammar
`<timestamp> [<thread>] <LEVEL> <target>:<line> <message>` with
whitespace-run separators, where the timestamp has the relaxed shape
`\d{4}-\d{2}-\d{2}T[0-9:.]+Z` (not the strict `HH:MM:SS.ffffff` form), the
level is one or more uppercase letters and the line number a digit run;
every non-matching line yields `none` (the model is a total function, so no
error is ever raised). -/
theorem claim_C3_amended (line : String) (r : Rec)
    (h : parse_line line = some r) : LineGrammar (rstripNl line.data) r := by
  obtain ⟨g, hg, f1, f2, f3, f4, f5, f6⟩ := parse_line_groups line r h
  obtain ⟨w1, w2, w3, w4, e, sh, n1, p1, n2, p2, n3, p3, n4, p4, n5, p5, n6, p6, n7, p7,
    n8, p8, hnl⟩ := structMatch_sound _ g hg
  exact ⟨g.ts, w1, g.thr, w2, g.level, w3, g.target, g.lineNo, w4, g.msg,
    e, sh, n1, p1, n2, p2, n3, p3, n4, p4, n5, p5, n6, p6, n7, p7, n8, p8, hnl,
    f1, f2, f3, f4, f5, f6⟩

/-- Witness for the amended C3 at a concrete line. -/
theorem claim_C3_witness :
    LineGrammar (rstripNl "2026-02-17T11:09:41.177185Z [c] INFO a.rs:10 NewRound started".data)
      ((parse_line "2026-02-17T11:09:41.177185Z [c] INFO a.rs:10 NewRound started").get
        (by rfl)) :=
  claim_C3_amended _ _ (Option.some_get (by rfl)).symm

theorem dropWhile_append_of_all (p : Char → Bool) (l r : List Char)
    (h : ∀ c ∈ l, p c) : (l ++ r).dropWhile p = r.dropWhile p := by
  induction l with
  | nil => simp
  | cons c t ih =>
      simp only [List.cons_append, List.dropWhile_cons, h c (by simp), if_pos]
      exact ih (fun d hd => h d (by simp [hd]))

/-- `JSON_RE.search` on a message that contains a brace pair: the match is
exactly the substring from the first `{` to the last `}` after it. -/
theorem jsonBlob_eq (pre mid post : List Char)
    (hpre : '{' ∉ pre) (hpost : '}' ∉ post) :
    jsonBlob (pre ++ '{' :: (mid ++ '}' :: post)) = some ('{' :: (mid ++ ['}'])) := by
  unfold jsonBlob
  have h1 : (pre ++ '{' :: (mid ++ '}' :: post)).dropWhile (fun c => c ≠ '{') =
      '{' :: (mid ++ '}' :: post) := by
    rw [dropWhile_append_of_all _ pre _ ?hall]
    · simp [List.dropWhile_cons]
    case hall =>
      intro c hc
      simp only [ne_eq, decide_eq_true_eq]
      intro heq
      exact hpre (heq ▸ hc)
  rw [h1]
  dsimp only
  have h2 : (mid ++ '}' :: post).reverse.dropWhile (fun c => c ≠ '}') =
      '}' :: mid.reverse := by
    have : (mid ++ '}' :: post).reverse = post.reverse ++ '}' :: mid.reverse := by
      simp
    rw [this, dropWhile_append_of_all _ post.reverse _ ?hall2]
    · simp [List.dropWhile_cons]
    case hall2 =>
      intro c hc
      simp only [ne_eq, decide_eq_true_eq]
      intro heq
      exact hpost (heq ▸ List.mem_reverse.mp hc)
  rw [h2]
  simp

/-- The payload-derived fields of a record returned by `parse_line`. -/
theorem parse_line_payload (line : String) (g : Groups)
    (h : structMatch (rstripNl line.data) = some g) (r : Rec)
    (hr : parse_line line = some r) :
    r.json = (jsonBlob g.msg).bind jloads ∧
    r.event = (match (jsonBlob g.msg).bind jloads with
               | some (Json.jobj ms) =>
                   match objGet ms "event".data with
                   | some (Json.jstr s) => some (String.mk s)
                   | _ => none
               | _ => none) ∧
    r.epoch = pget ((jsonBlob g.msg).bind jloads) "epoch" ∧
    r.round = pget ((jsonBlob g.msg).bind jloads) "round" ∧
    r.reason = pget ((jsonBlob g.msg).bind jloads) "reason" ∧
    r.remote_peer = pget ((jsonBlob g.msg).bind jloads) "remote_peer" ∧
    r.block_round = pget ((jsonBlob g.msg).bind jloads) "block_round" ∧
    r.block_epoch = pget ((jsonBlob g.msg).bind jloads) "block_epoch" ∧
    r.block_author = pget ((jsonBlob g.msg).bind jloads) "block_author" := by
  rw [parse_line, h] at hr
  dsimp only at hr
  split at hr
  · obtain rfl := Option.some.inj hr
    exact ⟨rfl, rfl, rfl, rfl, rfl, rfl, rfl, rfl, rfl⟩
  · exact absurd hr (by simp)

/-- Claim C4: on a structurally parsed line whose message contains a brace
pair, the decoder is attempted on exactly the substring from the first `{`
to the last `}`; decode failure is non-fatal (the line is then judged by
raw-message keyword matching alone and carries no payload); a decoded dict
with a string `event` becomes the record's event name, and the allow-listed
fields present at its top level are copied into the record. -/
theorem claim_C4 (line : String) (g : Groups) (pre mid post : List Char)
    (h : structMatch (rstripNl line.data) = some g)
    (hmsg : g.msg = pre ++ '{' :: (mid ++ '}' :: post))
    (hpre : '{' ∉ pre) (hpost : '}' ∉ post) :
    jsonBlob g.msg = some ('{' :: (mid ++ ['}'])) ∧
    (jloads ('{' :: (mid ++ ['}'])) = none →
      (parse_line line).isSome = kwMatch g.msg ∧
      ∀ r, parse_line line = some r → r.json = none ∧ r.event = none) ∧
    (∀ ms r, jloads ('{' :: (mid ++ ['}'])) = some (Json.jobj ms) →
      parse_line line = some r →
      r.json = some (Json.jobj ms) ∧
      r.event = (match objGet ms "event".data with
                 | some (Json.jstr s) => some (String.mk s)
                 | _ => none) ∧
      r.epoch = objGet ms "epoch".data ∧ r.round = objGet ms "round".data ∧
      r.reason = objGet ms "reason".data ∧
      r.remote_peer = objGet ms "remote_peer".data ∧
      r.block_round = objGet ms "block_round".data ∧
      r.block_epoch = objGet ms "block_epoch".data ∧
      r.block_author = objGet ms "block_author".data) := by
  have hblob : jsonBlob g.msg = some ('{' :: (mid ++ ['}'])) := by
    rw [hmsg]
    exact jsonBlob_eq pre mid post hpre hpost
  refine ⟨hblob, ?_, ?_⟩
  · intro hnone
    have hpay : (jsonBlob g.msg).bind jloads = none := by
      rw [hblob]
      simpa using hnone
    constructor
    · rw [parse_line_isSome line g h, hpay]
      simp [eventKwB]
    · intro r hr
      obtain ⟨e1, e2, -⟩ := parse_line_payload line g h r hr
      rw [hpay] at e1 e2
      exact ⟨e1, e2⟩
  · intro ms r hsome hr
    have hpay : (jsonBlob g.msg).bind jloads = some (Json.jobj ms) := by
      rw [hblob]
      simpa using hsome
    obtain ⟨e1, e2, e3, e4, e5, e6, e7, e8, e9⟩ := parse_line_payload line g h r hr
    rw [hpay] at e1 e2 e3 e4 e5 e6 e7 e8 e9
    exact ⟨e1, e2, by simpa [pget] using e3, by simpa [pget] using e4,
      by simpa [pget] using e5, by simpa [pget] using e6, by simpa [pget] using e7,
      by simpa [pget] using e8, by simpa [pget] using e9⟩

/-- Witness for C4: the `exLineJ` record carries `event="Vote"`, `epoch=2`,
`round=51`, copied from its decoded payload. -/
theorem claim_C4_witness :
    ((parse_line exLineJ).get (by rfl)).event = some "Vote" ∧
    ((parse_line exLineJ).get (by rfl)).epoch = some (Json.jint 2) ∧
    ((parse_line exLineJ).get (by rfl)).round = some (Json.jint 51) := by
  have happ := (claim_C4 exLineJ exGroupsJ [] exMidJ []
      (by rfl) (by rfl) (by simp) (by simp)).2.2 exMsJ
      ((parse_line exLineJ).get (by rfl))
      (by rfl) (Option.some_get (by rfl)).symm
  exact ⟨happ.2.1.trans rfl, happ.2.2.1.trans rfl, happ.2.2.2.1.trans rfl⟩

/-! ### Sorting of run-directory candidates -/

theorem lexLe_total (a b : List Char) : lexLe a b = true ∨ lexLe b a = true := by
  induction a generalizing b with
  | nil => simp [lexLe]
  | cons x xs ih =>
      cases b with
      | nil => simp [lexLe]
      | cons y ys =>
          simp only [lexLe]
          rcases Nat.lt_trichotomy x.toNat y.toNat with hlt | heq | hgt
          · simp [hlt]
          · simp [heq, Nat.lt_irrefl]
            exact ih ys
          · simp [hgt, Nat.lt_asymm hgt]

theorem lexLe_trans (a b c : List Char) (h1 : lexLe a b = true)
    (h2 : lexLe b c = true) : lexLe a c = true := by
  induction a generalizing b c with
  | nil => simp [lexLe]
  | cons x xs ih =>
      cases b with
      | nil => simp [lexLe] at h1
      | cons y ys =>
          cases c with
          | nil => simp [lexLe] at h2
          | cons z zs =>
              simp only [lexLe] at h1 h2 ⊢
              rcases Nat.lt_trichotomy x.toNat y.toNat with hxy | hxy | hxy
              · rcases Nat.lt_trichotomy y.toNat z.toNat with hyz | hyz | hyz
                · simp [Nat.lt_trans hxy hyz]
                · simp [hyz ▸ hxy]
                · rw [if_neg (Nat.lt_asymm hyz), if_pos hyz] at h2
                  exact absurd h2 (by simp)
              · rcases Nat.lt_trichotomy y.toNat z.toNat with hyz | hyz | hyz
                · simp [hxy ▸ hyz]
                · rw [if_neg (hxy ▸ hyz ▸ Nat.lt_irrefl _), if_neg (hxy ▸ hyz ▸ Nat.lt_irrefl _)]
                  rw [if_neg (hxy ▸ Nat.lt_irrefl _), if_neg (hxy ▸ Nat.lt_irrefl _)] at h1
                  rw [if_neg (hyz ▸ Nat.lt_irrefl _), if_neg (hyz ▸ Nat.lt_irrefl _)] at h2
                  exact ih ys zs h1 h2
                · rw [if_neg (Nat.lt_asymm hyz), if_pos hyz] at h2
                  exact absurd h2 (by simp)
              · rw [if_neg (Nat.lt_asymm hxy), if_pos hxy] at h1
                exact absurd h1 (by simp)

theorem mem_insSorted (x a : FSTree) (l : List FSTree) :
    a ∈ insSorted x l ↔ a = x ∨ a ∈ l := by
  induction l with
  | nil => simp [insSorted]
  | cons y ys ih =>
      simp only [insSorted]
      split
      · simp [List.mem_cons]
      · simp only [List.mem_cons, ih]
        tauto

theorem pairwise_insSorted (x : FSTree) (l : List FSTree)
    (h : l.Pairwise (fun a b => lexLe a.name.data b.name.data = true)) :
    (insSorted x l).Pairwise (fun a b => lexLe a.name.data b.name.data = true) := by
  induction l with
  | nil => simp [insSorted]
  | cons y ys ih =>
      simp only [insSorted]
      split
      · rename_i hle
        refine List.Pairwise.cons ?_ h
        intro b hb
        rcases List.mem_cons.mp hb with rfl | hb2
        · exact hle
        · exact lexLe_trans _ _ _ hle (List.rel_of_pairwise_cons h hb2)
      · rename_i hnle
        have hyx : lexLe y.name.data x.name.data = true := by
          rcases lexLe_total x.name.data y.name.data with h1 | h1
          · exact absurd h1 hnle
          · exact h1
        refine List.Pairwise.cons ?_ (ih (List.Pairwise.sublist (by simp) h))
        intro b hb
        rcases (mem_insSorted x b ys).mp hb with rfl | hb2
        · exact hyx
        · exact List.rel_of_pairwise_cons h hb2

theorem sorted_sortByName (l : List FSTree) :
    (sortByName l).Pairwise (fun a b => lexLe a.name.data b.name.data = true) := by
  induction l with
  | nil => simp [sortByName]
  | cons x xs ih => exact pairwise_insSorted x _ ih

theorem mem_sortByName (a : FSTree) (l : List FSTree) :
    a ∈ sortByName l ↔ a ∈ l := by
  induction l with
  | nil => simp [sortByName]
  | cons x xs ih =>
      show a ∈ insSorted x (sortByName xs) ↔ _
      rw [mem_insSorted]
      simp [ih]

theorem auto_branch (rootPath : String) (root : FSTree) :
    AutoRunDirsSpec rootPath root
      (let auto := (sortByName (root.children.filter FSTree.isDir)).filter looks_like_run_dir
       if !auto.isEmpty then auto.map (fun d => (rootPath ++ "/" ++ d.name, d))
       else if looks_like_run_dir root then [(rootPath, root)] else []) ∧
    (let auto := (sortByName (root.children.filter FSTree.isDir)).filter looks_like_run_dir
     if !auto.isEmpty then auto.map (fun d => (rootPath ++ "/" ++ d.name, d))
     else if looks_like_run_dir root then [(rootPath, root)] else []).Pairwise
      (fun a b => lexLe a.2.name.data b.2.name.data = true) := by
  dsimp only
  have memA : ∀ d, d ∈ (sortByName (root.children.filter FSTree.isDir)).filter
      looks_like_run_dir ↔
      d ∈ root.children ∧ d.isDir = true ∧ looks_like_run_dir d = true := by
    intro d
    simp only [List.mem_filter, mem_sortByName]
    tauto
  have anyiff : (root.children.any (fun d => d.isDir && looks_like_run_dir d) = true) ↔
      (sortByName (root.children.filter FSTree.isDir)).filter looks_like_run_dir ≠ [] := by
    rw [List.any_eq_true]
    constructor
    · rintro ⟨d, hd, hp⟩
      rw [Bool.and_eq_true] at hp
      have hmem := (memA d).mpr ⟨hd, hp.1, hp.2⟩
      intro h0
      rw [h0] at hmem
      simp at hmem
    · intro hne
      obtain ⟨d, hd⟩ := List.exists_mem_of_ne_nil _ hne
      obtain ⟨h1, h2, h3⟩ := (memA d).mp hd
      exact ⟨d, h1, by simp [h2, h3]⟩
  by_cases hA : (sortByName (root.children.filter FSTree.isDir)).filter
      looks_like_run_dir = []
  · rw [AutoRunDirsSpec, if_neg (by simp [anyiff, hA]), hA]
    simp only [List.isEmpty_nil, Bool.not_true, Bool.false_eq_true, if_false]
    by_cases hR : looks_like_run_dir root
    · rw [if_pos hR, if_pos hR]
      simp
    · rw [if_neg (by simpa using hR), if_neg (by simpa using hR)]
      simp
  · rw [AutoRunDirsSpec, if_pos (anyiff.mpr hA),
      if_pos (by simpa [List.isEmpty_iff] using hA)]
    refine ⟨⟨?_, ?_⟩, ?_⟩
    · intro d
      rw [List.map_map]
      simpa using memA d
    · intro e he
      obtain ⟨d, -, rfl⟩ := List.mem_map.mp he
      rfl
    · rw [List.pairwise_map]
      exact List.Pairwise.filter _ (sorted_sortByName _)

/-- Claim C5: run-directory resolution follows the four-step precedence
(hinted prefix + content check when both hints are truthy; otherwise
autodetection over immediate subdirectories; otherwise the root itself;
otherwise nothing), and the returned sequence is sorted lexicographically
by name. -/
theorem claim_C5 (rootPath : String) (root : FSTree) (tn st2 : Option String) :
    RunDirsSpec rootPath root tn st2 (find_run_dirs rootPath root tn st2) ∧
    (find_run_dirs rootPath root tn st2).Pairwise
      (fun a b => lexLe a.2.name.data b.2.name.data = true) := by
  rw [find_run_dirs, RunDirsSpec]
  cases hpfx : expectedRunPfx tn st2 with
  | none =>
      dsimp only
      simpa using auto_branch rootPath root
  | some pfx =>
      dsimp only
      have memH : ∀ d, d ∈ ((sortByName (root.children.filter FSTree.isDir)).filter
          (fun d => startsWithS pfx d.name)).filter looks_like_run_dir ↔
          d ∈ root.children ∧ d.isDir = true ∧ startsWithS pfx d.name = true ∧
            looks_like_run_dir d = true := by
        intro d
        simp only [List.mem_filter, mem_sortByName]
        tauto
      have anyiff : (root.children.any (fun d =>
          d.isDir && startsWithS pfx d.name && looks_like_run_dir d) = true) ↔
          ((sortByName (root.children.filter FSTree.isDir)).filter
            (fun d => startsWithS pfx d.name)).filter looks_like_run_dir ≠ [] := by
        rw [List.any_eq_true]
        constructor
        · rintro ⟨d, hd, hp⟩
          simp only [Bool.and_eq_true] at hp
          have hmem := (memH d).mpr ⟨hd, hp.1.1, hp.1.2, hp.2⟩
          intro h0
          rw [h0] at hmem
          simp at hmem
        · intro hne
          obtain ⟨d, hd⟩ := List.exists_mem_of_ne_nil _ hne
          obtain ⟨h1, h2, h3, h4⟩ := (memH d).mp hd
          exact ⟨d, h1, by simp [h2, h3, h4]⟩
      by_cases hH : ((sortByName (root.children.filter FSTree.isDir)).filter
          (fun d => startsWithS pfx d.name)).filter looks_like_run_dir = []
      · rw [if_neg (by simp [anyiff, hH]), hH]
        simp only [List.isEmpty_nil, Bool.not_true, Bool.false_eq_true, if_false]
        simpa using auto_branch rootPath root
      · rw [if_pos (anyiff.mpr hH), if_pos (by simpa [List.isEmpty_iff] using hH)]
        refine ⟨⟨?_, ?_⟩, ?_⟩
        · intro d
          rw [List.map_map]
          simpa using memH d
        · intro e he
          obtain ⟨d, -, rfl⟩ := List.mem_map.mp he
          rfl
        · rw [List.pairwise_map]
          exact List.Pairwise.filter _ (List.Pairwise.filter _ (sorted_sortByName _))

/-- Witness for C5 at a concrete tree: with no hints, autodetection selects
exactly the run directories, and the result is name-sorted. -/
theorem claim_C5_witness :
    FSTree.dir "a_run" [FSTree.file "stderr_0.log" []] ∈
      (find_run_dirs "/r" exRoot none none).map Prod.snd ∧
    (find_run_dirs "/r" exRoot none none).Pairwise
      (fun a b => lexLe a.2.name.data b.2.name.data = true) := by
  have h := claim_C5 "/r" exRoot none none
  refine ⟨?_, h.2⟩
  have h1 := h.1
  rw [RunDirsSpec] at h1
  rw [show expectedRunPfx none none = none from rfl] at h1
  rw [AutoRunDirsSpec, if_pos (by rfl)] at h1
  exact (h1.1 _).mpr ⟨by simp [exRoot, FSTree.children], rfl, by rfl⟩

/-! ### The run-directory loop invariant -/

theorem nodeLookup_append (ns ms : List (Nat × (List ERec × List String))) (j : Nat) :
    nodeLookup (ns ++ ms) j =
      (match nodeLookup ns j with
       | some p => some p
       | none => nodeLookup ms j) := by
  induction ns with
  | nil => simp [nodeLookup]
  | cons x rest ih =>
      obtain ⟨k, p⟩ := x
      simp only [List.cons_append, nodeLookup]
      split
      · rfl
      · exact ih

theorem nodeLookup_nodeApp (ns : List (Nat × (List ERec × List String)))
    (i : Nat) (e : ERec) (t : String) (j : Nat) :
    nodeLookup (nodeApp ns i e t) j =
      (if j = i then (nodeLookup ns i).map (fun p => (p.1 ++ [e], p.2 ++ [t]))
       else nodeLookup ns j) := by
  induction ns with
  | nil => simp [nodeApp, nodeLookup]
  | cons x rest ih =>
      obtain ⟨k, js, ts⟩ := x
      by_cases hki : k = i
      · by_cases hkj : k = j
        · have hji : j = i := hkj.symm.trans hki
          simp [nodeApp, nodeLookup, hki, hkj, hji]
        · have hji : ¬ j = i := fun h => hkj (hki.trans h.symm)
          have hij : ¬ i = j := fun h => hji h.symm
          simp [nodeApp, nodeLookup, hki, hkj, hji, hij]
      · by_cases hkj : k = j
        · have hji : ¬ j = i := fun h => hki (hkj.trans h)
          simp [nodeApp, nodeLookup, hki, hkj, hji]
        · simp [nodeApp, nodeLookup, hki, hkj, ih]

theorem stepLine_allJ (rn fp : String) (nd : Nat) (ls : Option (List String))
    (st : RunResult) (l : String) :
    (stepLine rn fp nd ls st l).allJ = st.allJ ++ lineKept rn fp nd ls l := by
  rw [stepLine, lineKept]
  cases hp : parse_line l with
  | none => simp
  | some rec =>
      dsimp only
      split
      · simp
      · split <;> simp

theorem stepLine_allT (rn fp : String) (nd : Nat) (ls : Option (List String))
    (st : RunResult) (l : String) :
    (stepLine rn fp nd ls st l).allT =
      st.allT ++ (lineKept rn fp nd ls l).map pretty := by
  rw [stepLine, lineKept]
  cases hp : parse_line l with
  | none => simp
  | some rec =>
      dsimp only
      split
      · simp
      · split <;> simp [pretty, prettyLine]

theorem stepLine_kept (rn fp : String) (nd : Nat) (ls : Option (List String))
    (st : RunResult) (l : String) :
    (stepLine rn fp nd ls st l).kept = st.kept + (lineKept rn fp nd ls l).length := by
  rw [stepLine, lineKept]
  cases hp : parse_line l with
  | none => simp
  | some rec =>
      dsimp only
      split
      · simp
      · split <;> simp

theorem stepLine_scanned (rn fp : String) (nd : Nat) (ls : Option (List String))
    (st : RunResult) (l : String) :
    (stepLine rn fp nd ls st l).scanned = st.scanned + 1 := by
  rw [stepLine]
  cases hp : parse_line l with
  | none => simp
  | some rec =>
      dsimp only
      split
      · simp
      · split <;> simp

theorem nodeApp_names (ns : List (Nat × (List ERec × List String)))
    (i : Nat) (e : ERec) (t : String) :
    (nodeApp ns i e t).flatMap (fun n => [nodeJName n.1, nodeTName n.1]) =
      ns.flatMap (fun n => [nodeJName n.1, nodeTName n.1]) := by
  induction ns with
  | nil => rfl
  | cons x rest ih =>
      obtain ⟨k, js, ts⟩ := x
      simp only [nodeApp]
      split <;> simp [ih]

theorem filter_append_single (A : List ERec) (e : ERec) (i : Nat) :
    (A ++ [e]).filter (fun x => x.node = i) =
      A.filter (fun x => x.node = i) ++ (if e.node = i then [e] else []) := by
  rw [List.filter_append]
  split
  · rename_i hni
    simp [List.filter, hni]
  · rename_i hni
    simp [List.filter, hni]

theorem stepLine_inv (rn fp : String) (nd : Nat) (ls : Option (List String))
    (st : RunResult) (l : String) (h : Inv st) :
    Inv (stepLine rn fp nd ls st l) := by
  obtain ⟨hT, hK, hC, hN⟩ := h
  rw [stepLine]
  cases hp : parse_line l with
  | none => exact ⟨hT, hK, hC, hN⟩
  | some rec =>
      dsimp only
      split
      · exact ⟨hT, hK, hC, hN⟩
      · have hnode : (⟨rec, fp, rn, nd⟩ : ERec).node = nd := rfl
        have hsingleEq : ∀ i, nd = i →
            (st.allJ ++ [(⟨rec, fp, rn, nd⟩ : ERec)]).filter (fun e => e.node = i) =
              st.allJ.filter (fun e => e.node = i) ++ [(⟨rec, fp, rn, nd⟩ : ERec)] := by
          intro i hi
          rw [filter_append_single, if_pos (hnode.trans hi)]
        have hsingleNe : ∀ i, ¬ nd = i →
            (st.allJ ++ [(⟨rec, fp, rn, nd⟩ : ERec)]).filter (fun e => e.node = i) =
              st.allJ.filter (fun e => e.node = i) := by
          intro i hi
          rw [filter_append_single, if_neg (fun hh => hi (hnode.symm.trans hh))]
          simp
        cases hlk : nodeLookup st.nodes nd with
        | some q =>
            dsimp only
            refine ⟨by simp [hT, pretty, prettyLine], by simp [hK],
              by simp [hC, nodeApp_names], ?_⟩
            intro i
            rw [nodeLookup_nodeApp]
            by_cases hij : i = nd
            · subst hij
              rw [if_pos rfl, hlk, hsingleEq i rfl]
              have hfne : ¬ (st.allJ.filter (fun e => e.node = i)).isEmpty = true := by
                intro hemp
                rw [hN i, if_pos hemp] at hlk
                exact absurd hlk (by simp)
              have hq : q = (st.allJ.filter (fun e => e.node = i),
                  (st.allJ.filter (fun e => e.node = i)).map pretty) := by
                have h2 := hN i
                rw [hlk, if_neg hfne] at h2
                exact Option.some.inj h2
              subst hq
              rw [if_neg (by simp)]
              simp [pretty, prettyLine]
            · rw [if_neg hij, hN i, hsingleNe i (fun hh => hij hh.symm)]
        | none =>
            dsimp only
            have hfe : (st.allJ.filter (fun e => e.node = nd)).isEmpty = true := by
              by_contra hx
              rw [hN nd, if_neg hx] at hlk
              exact absurd hlk (by simp)
            refine ⟨by simp [hT, pretty, prettyLine], by simp [hK], ?_, ?_⟩
            · simp [hC, nodeApp_names]
            · intro i
              simp only [nodeLookup_nodeApp, nodeLookup_append]
              by_cases hij : i = nd
              · subst hij
                rw [if_pos rfl, hlk]
                dsimp only
                simp only [nodeLookup, if_pos rfl]
                rw [hsingleEq i rfl, List.isEmpty_iff.mp hfe]
                simp [pretty, prettyLine]
              · rw [if_neg hij, hsingleNe i (fun hh => hij hh.symm)]
                by_cases hemp : (st.allJ.filter (fun e => e.node = i)).isEmpty = true
                · have hli : nodeLookup st.nodes i = none := by
                    rw [hN i, if_pos hemp]
                  rw [hli, if_pos hemp]
                  dsimp only
                  simp only [nodeLookup]
                  rw [if_neg (fun hh => hij hh.symm)]
                · have hli : nodeLookup st.nodes i =
                      some (st.allJ.filter (fun e => e.node = i),
                        (st.allJ.filter (fun e => e.node = i)).map pretty) := by
                    rw [hN i, if_neg hemp]
                  rw [hli, if_neg hemp]

theorem foldLines_allJ (rn fp : String) (nd : Nat) (ls : Option (List String))
    (lines : List String) : ∀ st : RunResult,
    (lines.foldl (stepLine rn fp nd ls) st).allJ =
      st.allJ ++ lines.flatMap (lineKept rn fp nd ls) := by
  induction lines with
  | nil => intro st; simp
  | cons l rest ih =>
      intro st
      simp only [List.foldl_cons, List.flatMap_cons, ih, stepLine_allJ,
        List.append_assoc]

theorem foldLines_scanned (rn fp : String) (nd : Nat) (ls : Option (List String))
    (lines : List String) : ∀ st : RunResult,
    (lines.foldl (stepLine rn fp nd ls) st).scanned = st.scanned + lines.length := by
  induction lines with
  | nil => intro st; simp
  | cons l rest ih =>
      intro st
      simp only [List.foldl_cons, ih, stepLine_scanned, List.length_cons]
      omega

theorem foldLines_inv (rn fp : String) (nd : Nat) (ls : Option (List String))
    (lines : List String) : ∀ st : RunResult, Inv st →
    Inv (lines.foldl (stepLine rn fp nd ls) st) := by
  induction lines with
  | nil => intro st h; exact h
  | cons l rest ih =>
      intro st h
      exact ih _ (stepLine_inv rn fp nd ls st l h)

theorem foldFiles_allJ (rn : String) (ls : Option (List String))
    (files : List (String × List String × Nat)) : ∀ st : RunResult,
    (files.foldl (stepFile rn ls) st).allJ =
      st.allJ ++ files.flatMap (fun f => f.2.1.flatMap (lineKept rn f.1 f.2.2 ls)) := by
  induction files with
  | nil => intro st; simp
  | cons f rest ih =>
      intro st
      simp only [List.foldl_cons, List.flatMap_cons, ih, stepFile,
        foldLines_allJ, List.append_assoc]

theorem foldFiles_scanned (rn : String) (ls : Option (List String))
    (files : List (String × List String × Nat)) : ∀ st : RunResult,
    (files.foldl (stepFile rn ls) st).scanned =
      st.scanned + (files.map (fun f => f.2.1.length)).sum := by
  induction files with
  | nil => intro st; simp
  | cons f rest ih =>
      intro st
      simp only [List.foldl_cons, List.map_cons, List.sum_cons, ih, stepFile,
        foldLines_scanned]
      omega

theorem foldFiles_inv (rn : String) (ls : Option (List String))
    (files : List (String × List String × Nat)) : ∀ st : RunResult, Inv st →
    Inv (files.foldl (stepFile rn ls) st) := by
  induction files with
  | nil => intro st h; exact h
  | cons f rest ih =>
      intro st h
      exact ih _ (foldLines_inv _ _ _ _ _ _ h)

theorem inv_initRun : Inv initRun := by
  refine ⟨rfl, rfl, rfl, ?_⟩
  intro i
  simp [initRun, nodeLookup]

theorem filterRun_allJ (runPath : String) (runDir : FSTree)
    (ls : Option (List String)) :
    (filter_one_run_dir runPath runDir ls).allJ = keptRecs runPath runDir ls := by
  rw [filter_one_run_dir, keptRecs, foldFiles_allJ]
  rfl

theorem filterRun_scanned (runPath : String) (runDir : FSTree)
    (ls : Option (List String)) :
    (filter_one_run_dir runPath runDir ls).scanned = totalLines runPath runDir := by
  rw [filter_one_run_dir, totalLines, foldFiles_scanned]
  simp [initRun]

theorem filterRun_inv (runPath : String) (runDir : FSTree)
    (ls : Option (List String)) : Inv (filter_one_run_dir runPath runDir ls) :=
  foldFiles_inv _ _ _ _ inv_initRun

theorem lineKept_length_le (rn fp : String) (nd : Nat)
    (ls : Option (List String)) (l : String) :
    (lineKept rn fp nd ls l).length ≤ 1 := by
  rw [lineKept]
  cases parse_line l with
  | none => simp
  | some rec =>
      dsimp only
      split <;> simp

theorem keptRecs_length_le (runPath : String) (runDir : FSTree)
    (ls : Option (List String)) :
    (keptRecs runPath runDir ls).length ≤ totalLines runPath runDir := by
  rw [keptRecs, totalLines]
  induction iter_log_files runPath runDir with
  | nil => simp
  | cons f rest ih =>
      simp only [List.flatMap_cons, List.map_cons, List.sum_cons, List.length_append]
      have h1 : (f.2.1.flatMap (lineKept runDir.name f.1 f.2.2 ls)).length ≤
          f.2.1.length := by
        induction f.2.1 with
        | nil => simp
        | cons l ls2 ih2 =>
            simp only [List.flatMap_cons, List.length_append, List.length_cons]
            have := lineKept_length_le runDir.name f.1 f.2.2 ls l
            omega
      omega

/-- Claim C6: the combined structured sink holds exactly the kept records
of the run directory in production order; the combined pretty sink is their
pretty serialization in the same order; each node's sinks hold exactly that
node's kept records with their `"<timestamp> <message>"` pretty lines, in
the same order; and on the concrete two-file example (`stdout_0.log`,
`stderr_1.log`, one acceptable line each) the node 0 and node 1 sinks hold
one record each while the combined sinks hold two. -/
theorem claim_C6 (runPath : String) (runDir : FSTree) (ls : Option (List String)) :
    (filter_one_run_dir runPath runDir ls).allJ = keptRecs runPath runDir ls ∧
    (filter_one_run_dir runPath runDir ls).allT =
      (keptRecs runPath runDir ls).map pretty ∧
    (∀ e : ERec, pretty e = e.lrec.ts ++ " " ++ e.lrec.msg) ∧
    (∀ i, nodeLookup (filter_one_run_dir runPath runDir ls).nodes i =
      (if ((keptRecs runPath runDir ls).filter (fun e => e.node = i)).isEmpty then
        none
       else
        some ((keptRecs runPath runDir ls).filter (fun e => e.node = i),
          ((keptRecs runPath runDir ls).filter (fun e => e.node = i)).map pretty))) ∧
    (nodeLookup (filter_one_run_dir "/r/run" exRun2 none).nodes 0).map
        (fun p => (p.1.length, p.2.length)) = some (1, 1) ∧
    (nodeLookup (filter_one_run_dir "/r/run" exRun2 none).nodes 1).map
        (fun p => (p.1.length, p.2.length)) = some (1, 1) ∧
    (filter_one_run_dir "/r/run" exRun2 none).allJ.length = 2 ∧
    (filter_one_run_dir "/r/run" exRun2 none).allT.length = 2 := by
  obtain ⟨hT, hK, hC, hN⟩ := filterRun_inv runPath runDir ls
  have hJ := filterRun_allJ runPath runDir ls
  refine ⟨hJ, by rw [hT, hJ], fun e => rfl, ?_, by rfl, by rfl, by rfl, by rfl⟩
  intro i
  rw [hN i, hJ]

/-- Claim C7: kept never exceeds scanned, for each run directory and for the
global totals summed across run directories. -/
theorem claim_C7 (rootPath : String) (root : FSTree) (tn st2 levelsArg : Option String)
    (runPath : String) (runDir : FSTree) (ls : Option (List String)) :
    (filter_one_run_dir runPath runDir ls).kept ≤
      (filter_one_run_dir runPath runDir ls).scanned ∧
    (process rootPath root tn st2 levelsArg).2.2 ≤
      (process rootPath root tn st2 levelsArg).2.1 := by
  have hone : ∀ (p : String) (d : FSTree) (ls2 : Option (List String)),
      (filter_one_run_dir p d ls2).kept ≤ (filter_one_run_dir p d ls2).scanned := by
    intro p d ls2
    obtain ⟨-, hK, -, -⟩ := filterRun_inv p d ls2
    rw [hK, filterRun_allJ, filterRun_scanned]
    exact keptRecs_length_le p d ls2
  refine ⟨hone runPath runDir ls, ?_⟩
  rw [process]
  dsimp only
  rw [List.map_map, List.map_map]
  apply List.sum_le_sum
  intro rd hrd
  exact hone rd.1 rd.2 (parseLevels levelsArg)

theorem nodes_nil_of_lookup_none (ns : List (Nat × (List ERec × List String)))
    (h : ∀ i, nodeLookup ns i = none) : ns = [] := by
  cases ns with
  | nil => rfl
  | cons x rest =>
      obtain ⟨k, p⟩ := x
      have := h k
      simp [nodeLookup] at this

/-- Claim C10: the combined sinks `all_nodes.jsonl` / `all_nodes.log` are
created eagerly (they head the created-file list, before any per-node file,
and are present even when nothing is kept), while `node<id>.jsonl` /
`node<id>.log` are created lazily: a node's sinks exist exactly when at
least one record was kept for that node, and the per-node writer map is
empty exactly when no record at all was kept. -/
theorem claim_C10 (runPath : String) (runDir : FSTree) (ls : Option (List String)) :
    (filter_one_run_dir runPath runDir ls).created =
      ["all_nodes.jsonl", "all_nodes.log"] ++
        (filter_one_run_dir runPath runDir ls).nodes.flatMap
          (fun n => [nodeJName n.1, nodeTName n.1]) ∧
    (∀ i, (nodeLookup (filter_one_run_dir runPath runDir ls).nodes i).isSome =
      !((keptRecs runPath runDir ls).filter (fun e => e.node = i)).isEmpty) ∧
    (filter_one_run_dir runPath runDir ls).nodes.isEmpty =
      (keptRecs runPath runDir ls).isEmpty := by
  obtain ⟨hT, hK, hC, hN⟩ := filterRun_inv runPath runDir ls
  have hJ := filterRun_allJ runPath runDir ls
  refine ⟨hC, ?_, ?_⟩
  · intro i
    rw [hN i, hJ]
    by_cases hemp : ((keptRecs runPath runDir ls).filter (fun e => e.node = i)).isEmpty = true
    · rw [if_pos hemp, hemp]
      rfl
    · rw [if_neg hemp]
      simp only [Option.isSome_some]
      cases hb : ((keptRecs runPath runDir ls).filter (fun e => e.node = i)).isEmpty
      · rfl
      · exact absurd hb hemp
  · rw [Bool.eq_iff_iff, List.isEmpty_iff, List.isEmpty_iff]
    constructor
    · intro hnil
      by_contra hne
      obtain ⟨e, he⟩ := List.exists_mem_of_ne_nil _ hne
      have hlk := hN e.node
      rw [hnil] at hlk
      simp only [nodeLookup] at hlk
      rw [hJ] at hlk
      have hmem : e ∈ (keptRecs runPath runDir ls).filter (fun x => x.node = e.node) :=
        List.mem_filter.mpr ⟨he, by simp⟩
      split at hlk
      · rename_i hemp
        rw [List.isEmpty_iff.mp hemp] at hmem
        simp at hmem
      · exact absurd hlk.symm (by simp)
    · intro hnil
      apply nodes_nil_of_lookup_none
      intro i
      rw [hN i, hJ, hnil]
      simp

/-! ### Level filtering -/

theorem flatMap_filter {α β : Type} (l : List α) (f : α → List β) (p : β → Bool) :
    (l.flatMap f).filter p = l.flatMap (fun x => (f x).filter p) := by
  induction l with
  | nil => rfl
  | cons x rest ih => simp [List.filter_append, ih]

theorem lineKept_levels (rn fp : String) (nd : Nat) (s : List String)
    (hs : ¬ s.isEmpty = true) (l : String) :
    lineKept rn fp nd (some s) l =
      (lineKept rn fp nd none l).filter (fun e => s.contains e.lrec.level) := by
  rw [lineKept, lineKept]
  cases parse_line l with
  | none => rfl
  | some rec =>
      dsimp only
      rw [levelSkip, levelSkip]
      simp only [Bool.false_eq_true, if_false, List.filter_cons, List.filter_nil]
      cases hc : s.contains rec.level
      · rw [if_pos (by simp [hs, hc])]
        simp [hc]
      · rw [if_neg (by simp [hs, hc])]
        simp [hc]

theorem lineKept_empty_levels (rn fp : String) (nd : Nat) (l : String) :
    lineKept rn fp nd (some ([] : List String)) l = lineKept rn fp nd none l := by
  rw [lineKept, lineKept]
  cases parse_line l with
  | none => rfl
  | some rec => simp [levelSkip]

theorem flatMap_lineKept_levels (rn fp : String) (nd : Nat) (s : List String)
    (hs : ¬ s.isEmpty = true) (lines : List String) :
    lines.flatMap (lineKept rn fp nd (some s)) =
      (lines.flatMap (lineKept rn fp nd none)).filter
        (fun e => s.contains e.lrec.level) := by
  induction lines with
  | nil => rfl
  | cons l rest ih =>
      simp only [List.flatMap_cons, List.filter_append, ih,
        lineKept_levels rn fp nd s hs l]

theorem keptRecs_levels (runPath : String) (runDir : FSTree) (s : List String)
    (hs : ¬ s.isEmpty = true) :
    keptRecs runPath runDir (some s) =
      (keptRecs runPath runDir none).filter (fun e => s.contains e.lrec.level) := by
  rw [keptRecs, keptRecs]
  induction iter_log_files runPath runDir with
  | nil => rfl
  | cons f rest ih =>
      simp only [List.flatMap_cons, List.filter_append, ih,
        flatMap_lineKept_levels runDir.name f.1 f.2.2 s hs f.2.1]

theorem keptRecs_empty_levels (runPath : String) (runDir : FSTree) :
    keptRecs runPath runDir (some ([] : List String)) =
      keptRecs runPath runDir none := by
  rw [keptRecs, keptRecs]
  induction iter_log_files runPath runDir with
  | nil => rfl
  | cons f rest ih =>
      have hfl : f.2.1.flatMap (lineKept runDir.name f.1 f.2.2 (some [])) =
          f.2.1.flatMap (lineKept runDir.name f.1 f.2.2 none) := by
        induction f.2.1 with
        | nil => rfl
        | cons l rest2 ih2 =>
            simp only [List.flatMap_cons, ih2, lineKept_empty_levels]
      simp only [List.flatMap_cons, ih, hfl]

/-- Counterexample to claim C8 as stated: `--levels ","` configures a level
filter whose set is empty; the record's level `INFO` is not in that set,
yet the record is written and `kept` is incremented, because the code's
guard `if level_set and ...` treats an empty set as no filter (Python
truthiness). -/
theorem claim_C8_counterexample :
    parseLevels (some ",") = some [] ∧
    (filter_one_run_dir "/r/run" exRun2 (parseLevels (some ","))).kept = 2 ∧
    (filter_one_run_dir "/r/run" exRun2 (parseLevels (some ","))).allJ.map
        (fun e => e.lrec.level) = ["INFO", "WARN"] ∧
    ¬ ("INFO" ∈ ([] : List String)) := by
  refine ⟨rfl, rfl, rfl, by simp⟩

/-- Claim C8 (amended): with a configured non-empty level filter, the
records written (to the combined sinks, and hence by C6 to every sink) are
exactly the relevance-accepted records whose level is in the filter set,
and `kept` counts them; with no filter configured, or with a configured but
empty filter set, every relevance-accepted record is written and counted. -/
theorem claim_C8_amended (runPath : String) (runDir : FSTree) (s : List String) :
    (s ≠ [] →
      (filter_one_run_dir runPath runDir (some s)).allJ =
        (filter_one_run_dir runPath runDir none).allJ.filter
          (fun e => s.contains e.lrec.level) ∧
      (filter_one_run_dir runPath runDir (some s)).kept =
        ((filter_one_run_dir runPath runDir none).allJ.filter
          (fun e => s.contains e.lrec.level)).length) ∧
    (filter_one_run_dir runPath runDir (some ([] : List String))).allJ =
      (filter_one_run_dir runPath runDir none).allJ ∧
    (filter_one_run_dir runPath runDir (some ([] : List String))).kept =
      (filter_one_run_dir runPath runDir none).kept := by
  have hkept : ∀ ls : Option (List String),
      (filter_one_run_dir runPath runDir ls).kept =
        (filter_one_run_dir runPath runDir ls).allJ.length := by
    intro ls
    exact (filterRun_inv runPath runDir ls).2.1
  have hkr : ∀ ls : Option (List String),
      (filter_one_run_dir runPath runDir ls).allJ = keptRecs runPath runDir ls :=
    fun ls => filterRun_allJ runPath runDir ls
  refine ⟨?_, ?_, ?_⟩
  · intro hs
    have hmain := keptRecs_levels runPath runDir s (by simpa [List.isEmpty_iff] using hs)
    refine ⟨by rw [hkr, hkr, hmain], by rw [hkept, hkr, hkr, hmain]⟩
  · rw [hkr, hkr, keptRecs_empty_levels]
  · rw [hkept, hkept, hkr, hkr, keptRecs_empty_levels]

/-- Witness for the amended C8: a `{"WARN"}` filter keeps only the WARN
record of the two-record example. -/
theorem claim_C8_witness :
    (filter_one_run_dir "/r/run" exRun2 (some ["WARN"])).allJ =
      (filter_one_run_dir "/r/run" exRun2 none).allJ.filter
        (fun e => ["WARN"].contains e.lrec.level) ∧
    (filter_one_run_dir "/r/run" exRun2 (some ["WARN"])).kept = 1 := by
  refine ⟨((claim_C8_amended "/r/run" exRun2 ["WARN"]).1 (by simp)).1, by rfl⟩

/-! ### Output-file store: overwrite semantics and determinism -/

theorem storeGet_storeSet_self (st : Store) (k : String) (v : SinkData) :
    storeGet (storeSet st k v) k = some v := by
  induction st with
  | nil => simp [storeSet, storeGet]
  | cons x rest ih =>
      obtain ⟨k2, v2⟩ := x
      by_cases h : k2 = k
      · simp [storeSet, storeGet, h]
      · simp [storeSet, storeGet, h, ih]

theorem storeGet_storeSet_ne (st : Store) (k : String) (v : SinkData)
    (k' : String) (h : ¬ k' = k) :
    storeGet (storeSet st k v) k' = storeGet st k' := by
  have h2 : ¬ k = k' := fun hh => h hh.symm
  induction st with
  | nil => simp [storeSet, storeGet, h2]
  | cons x rest ih =>
      obtain ⟨k2, v2⟩ := x
      rw [storeSet]
      by_cases hk2 : k2 = k
      · subst hk2
        rw [if_pos rfl, storeGet, storeGet, if_neg h2, if_neg h2]
      · rw [if_neg hk2, storeGet, storeGet]
        by_cases h3 : k2 = k'
        · rw [if_pos h3, if_pos h3]
        · rw [if_neg h3, if_neg h3]
          exact ih

theorem foldl_storeSet_not_mem (kvs : List (String × SinkData)) (k : String)
    (h : k ∉ kvs.map Prod.fst) : ∀ s : Store,
    storeGet (kvs.foldl (fun st kv => storeSet st kv.1 kv.2) s) k = storeGet s k := by
  induction kvs with
  | nil => intro s; rfl
  | cons kv rest ih =>
      intro s
      simp only [List.map_cons, List.mem_cons] at h
      push_neg at h
      rw [List.foldl_cons, ih h.2, storeGet_storeSet_ne _ _ _ _ h.1]

theorem foldl_storeSet_indep (kvs : List (String × SinkData)) (k : String)
    (h : k ∈ kvs.map Prod.fst) : ∀ s1 s2 : Store,
    storeGet (kvs.foldl (fun st kv => storeSet st kv.1 kv.2) s1) k =
      storeGet (kvs.foldl (fun st kv => storeSet st kv.1 kv.2) s2) k := by
  induction kvs with
  | nil => simp at h
  | cons kv rest ih =>
      intro s1 s2
      by_cases hr : k ∈ rest.map Prod.fst
      · simp only [List.foldl_cons]
        exact ih hr _ _
      · have hk : k = kv.1 := by
          simp only [List.map_cons, List.mem_cons] at h
          tauto
        subst hk
        simp only [List.foldl_cons]
        rw [foldl_storeSet_not_mem rest _ hr, foldl_storeSet_not_mem rest _ hr,
          storeGet_storeSet_self, storeGet_storeSet_self]

theorem nodeFromFilename_all_nodes_jsonl : nodeFromFilename "all_nodes.jsonl" = none := by
  rfl

theorem nodeFromFilename_nodeJ (i : Nat) : nodeFromFilename (nodeJName i) = none := by
  have hdata : (nodeJName i).data.map Char.toLower =
      'n' :: ('o' :: ('d' :: ('e' :: ((toString i).data ++ ".jsonl".data).map Char.toLower))) := by
    rw [nodeJName, String.data_append, String.data_append]
    rfl
  rw [nodeFromFilename, hdata]
  rw [show leadMatch "stdout_".data
      ('n' :: ('o' :: ('d' :: ('e' :: ((toString i).data ++ ".jsonl".data).map Char.toLower)))) =
      false from rfl]
  rw [show leadMatch "stderr_".data
      ('n' :: ('o' :: ('d' :: ('e' :: ((toString i).data ++ ".jsonl".data).map Char.toLower)))) =
      false from rfl]
  rfl

theorem nodeFromFilename_nodeT (i : Nat) : nodeFromFilename (nodeTName i) = none := by
  have hdata : (nodeTName i).data.map Char.toLower =
      'n' :: ('o' :: ('d' :: ('e' :: ((toString i).data ++ ".log".data).map Char.toLower))) := by
    rw [nodeTName, String.data_append, String.data_append]
    rfl
  rw [nodeFromFilename, hdata]
  rw [show leadMatch "stdout_".data
      ('n' :: ('o' :: ('d' :: ('e' :: ((toString i).data ++ ".log".data).map Char.toLower)))) =
      false from rfl]
  rw [show leadMatch "stderr_".data
      ('n' :: ('o' :: ('d' :: ('e' :: ((toString i).data ++ ".log".data).map Char.toLower)))) =
      false from rfl]
  rfl

/-- Claim C9: an invocation is deterministic and overwrites its outputs.
The global counts do not depend on the pre-existing output-file state; for
every file the invocation writes, the final contents are the same whatever
the initial state held (mode `w` truncates, nothing reads a sink); and no
file the pipeline writes matches the node-log name pattern, so a second
invocation scans exactly the same input lines. -/
theorem claim_C9 (rootPath : String) (root : FSTree) (tn st2 levelsArg : Option String)
    (out : String) (s1 s2 : Store) :
    (processStore rootPath root tn st2 levelsArg out s1).2 =
      (processStore rootPath root tn st2 levelsArg out s2).2 ∧
    (∀ f, f ∈ (allWrites rootPath root tn st2 levelsArg out).map Prod.fst →
      storeGet (processStore rootPath root tn st2 levelsArg out s1).1 f =
        storeGet (processStore rootPath root tn st2 levelsArg out s2).1 f) ∧
    (∀ R : RunResult, ∀ kv ∈ runFiles R, nodeFromFilename kv.1 = none) := by
  refine ⟨rfl, ?_, ?_⟩
  · intro f hf
    exact foldl_storeSet_indep _ f hf s1 s2
  · intro R kv hkv
    rw [runFiles] at hkv
    rcases List.mem_append.mp hkv with hkv1 | hkv2
    · rcases List.mem_cons.mp hkv1 with rfl | hkv3
      · rfl
      · rcases List.mem_cons.mp hkv3 with rfl | hkv4
        · rfl
        · simp at hkv4
    · obtain ⟨n, -, hmem⟩ := List.mem_flatMap.mp hkv2
      rcases List.mem_cons.mp hmem with rfl | hmem2
      · exact nodeFromFilename_nodeJ n.1
      · rcases List.mem_cons.mp hmem2 with rfl | hmem3
        · exact nodeFromFilename_nodeT n.1
        · simp at hmem3

/-- Witness for C9 at a concrete tree and two different initial stores. -/
theorem claim_C9_witness :
    storeGet (processStore "/r" exRoot none none none "filtered" []).1
        "/r/a_run/filtered/all_nodes.jsonl" =
      storeGet (processStore "/r" exRoot none none none "filtered"
          [("/r/a_run/filtered/all_nodes.jsonl",
            SinkData.text ["stale content"])]).1
        "/r/a_run/filtered/all_nodes.jsonl" :=
  (claim_C9 "/r" exRoot none none none "filtered" []
      [("/r/a_run/filtered/all_nodes.jsonl", SinkData.text ["stale content"])]).2.1
    "/r/a_run/filtered/all_nodes.jsonl" (by decide)

/-- Claim C1 is violated by the code: the per-file `try`/`except OSError:
continue` in `filter_one_run_dir` encloses the sink writes, so a failing
sink write is silently swallowed instead of propagating. Evaluating the
fallible-write model on two one-record files with the second write (the
node-0 pretty write of the first record) raising `OSError` shows: node 0's
jsonl sink holds the record while its pretty sink is empty (partial
fan-out, not all-or-none); the combined sinks miss the record entirely; the
second file is still processed (node 1 complete); and the call returns
normal counts — the failure-free run keeps 2 records, the failing run
silently keeps 1 and the invocation would exit with status 0. -/
theorem claim_C1_code_bug :
    (nodeLookup (filterRunF 1 "/r/run" exRun2 none).nodes 0).map
        (fun p => (p.1.length, p.2.length)) = some (1, 0) ∧
    (nodeLookup (filterRunF 1 "/r/run" exRun2 none).nodes 1).map
        (fun p => (p.1.length, p.2.length)) = some (1, 1) ∧
    (filterRunF 1 "/r/run" exRun2 none).allJ.length = 1 ∧
    (filterRunF 1 "/r/run" exRun2 none).allT.length = 1 ∧
    (filterRunF 1 "/r/run" exRun2 none).scanned = 2 ∧
    (filterRunF 1 "/r/run" exRun2 none).kept = 1 ∧
    (filter_one_run_dir "/r/run" exRun2 none).kept = 2 := by
  exact ⟨rfl, rfl, rfl, rfl, rfl, rfl, rfl⟩

end FilterLogs
